import Mathlib

/-!
duper: size grouping and duplicate detection.

A shallow embedding of `main.go` of `sneddonlewis/duper`: the file records, the
size grouper (`groupByFileSize`), the duplicate detector
(`DupGroupFromSizeGroup`, driven by the loop of `showDuplicates`), the
comparator handed to `sort.Slice` in `main`, and the extension filter with the
file walker (`GetFiles`).

Go slices are lists, `int64` sizes are integers (they are only compared), the Go
`int` counter is an integer reduced into the 64-bit two's-complement range after
every increment, and the `(*DuplicateGroup, int, error)` result is a triple whose
first and last components are options. The file system enters `GetFiles` as the
list of calls `filepath.Walk` makes and as a function that yields the hash of a
file's content; a panic and `log.Fatal` are the two ways of not returning.
-/

namespace Duper

/-! ## Data model -/

/-- The record `UserFile` of `main.go`. -/
structure UserFile where
  Name : String
  Path : String
  Size : Int
  FileExtension : String
  Hash : String
deriving DecidableEq, Repr

/-- The record `UserFileGroupBySize` of `main.go`. -/
structure UserFileGroupBySize where
  Size : Int
  files : List UserFile
deriving DecidableEq, Repr

/-- The record `Duplicate` of `main.go`. -/
structure Duplicate where
  File : UserFile
  Number : Int
deriving DecidableEq, Repr

/-- The record `DuplicateGroup` of `main.go`. -/
structure DuplicateGroup where
  Size : Int
  Hash : String
  Files : List Duplicate
deriving DecidableEq, Repr

/-! ## Machine integers -/

/-- Two's-complement reduction of an integer into the range of a 64-bit Go `int`. -/
def wrapInt64 (x : Int) : Int :=
  (x + 2 ^ 63) % 2 ^ 64 - 2 ^ 63

/-! ## Size grouper -/

/-- Constructor `NewUserFileGroupBySize`: an empty group of the given size. -/
def NewUserFileGroupBySize (size : Int) : UserFileGroupBySize :=
  { Size := size, files := [] }

/-- Method `AddFile`: appends the file when its size is the group's size. -/
def UserFileGroupBySize.AddFile (g : UserFileGroupBySize) (file : UserFile) :
    UserFileGroupBySize :=
  if g.Size = file.Size then { g with files := g.files ++ [file] } else g

/-- The closure `contains` inside `groupByFileSize`: linear search in a slice of sizes. -/
def contains : List Int → Int → Bool
  | [], _ => false
  | a :: s, e => if a = e then true else contains s e

/-- Body of the first loop of `groupByFileSize`; the state is `(sizes, groups)`. -/
def initGroupsStep (st : List Int × List UserFileGroupBySize) (file : UserFile) :
    List Int × List UserFileGroupBySize :=
  if file.Size ≠ 0 then
    if !contains st.1 file.Size then
      (st.1 ++ [file.Size], st.2 ++ [NewUserFileGroupBySize file.Size])
    else st
  else st

/-- Body of the inner loop of the second phase of `groupByFileSize`. -/
def addFilesStep (group : UserFileGroupBySize) (file : UserFile) : UserFileGroupBySize :=
  if file.Size = 0 then group
  else if group.Size = file.Size then group.AddFile file
  else group

/-- The function `groupByFileSize`. `sizes` starts as `make([]int64, 1)`, the one-element
slice `[0]`. The second loop works on a copy of each group and stores it back at the
same index, which is a map over the groups made by the first loop. -/
def groupByFileSize (files : List UserFile) : List UserFileGroupBySize :=
  let groups := (files.foldl initGroupsStep ([0], [])).2
  groups.map (fun group => files.foldl addFilesStep group)

/-- The sizes of the groups the first loop of `groupByFileSize` opens, in order. -/
def openedSizes (files : List UserFile) : List Int :=
  (files.foldl initGroupsStep ([0], [])).2.map (fun g => g.Size)

/-! ## Duplicate detector -/

/-- The function `containsString`: linear search in a slice of strings. -/
def containsString : List String → String → Bool
  | [], _ => false
  | a :: s, e => if a = e then true else containsString s e

/-- Constructor `NewDuplicate`. -/
def NewDuplicate (file : UserFile) (number : Int) : Duplicate :=
  { File := file, Number := number }

/-- The variables the loop of `DupGroupFromSizeGroup` updates. -/
structure DupState where
  hashes : List String
  lastCount : Int
  dupGroup : DuplicateGroup
deriving DecidableEq, Repr

/-- Body of the loop of `DupGroupFromSizeGroup` for one `(index, file)` pair. -/
def dupStep (st : DupState) (entry : Nat × UserFile) : DupState :=
  if entry.1 = 0 then st
  else
    let hashes := st.hashes ++ [entry.2.Hash]
    if containsString hashes entry.2.Hash then
      let lastCount := wrapInt64 (st.lastCount + 1)
      let files := st.dupGroup.Files ++ [NewDuplicate entry.2 lastCount]
      let hash := if st.dupGroup.Hash = "" then entry.2.Hash else st.dupGroup.Hash
      { hashes := hashes, lastCount := lastCount,
        dupGroup := { Size := st.dupGroup.Size, Hash := hash, Files := files } }
    else
      { st with hashes := hashes }

/-- The files of a slice paired with their indices, as `range` yields them. -/
def indexed : Nat → List UserFile → List (Nat × UserFile)
  | _, [] => []
  | n, f :: fs => (n, f) :: indexed (n + 1) fs

/-- The error text of `DupGroupFromSizeGroup`. -/
def tooFewFiles : String :=
  "need at least two files of the same size to check for duplicates"

/-- The function `DupGroupFromSizeGroup`; the result is the triple
`(*DuplicateGroup, int, error)` with `nil` as `none`. -/
def DupGroupFromSizeGroup (group : UserFileGroupBySize) (lastCount : Int) :
    Option DuplicateGroup × Int × Option String :=
  if group.files.length < 2 then (none, lastCount, some tooFewFiles)
  else
    match group.files with
    | [] => (none, lastCount, some tooFewFiles)
    | firstFile :: _ =>
      let st0 : DupState :=
        { hashes := [firstFile.Hash], lastCount := lastCount,
          dupGroup := { Size := firstFile.Size, Hash := "", Files := [] } }
      let st := (indexed 0 group.files).foldl dupStep st0
      let skipFirstHashes := st.hashes.drop 1
      if containsString skipFirstHashes firstFile.Hash then
        let lastCount := wrapInt64 (st.lastCount + 1)
        (some { st.dupGroup with
                Files := st.dupGroup.Files ++ [NewDuplicate firstFile lastCount] },
          lastCount, none)
      else
        (some st.dupGroup, st.lastCount, none)

/-- Body of the loop of `showDuplicates`; the state is `(duplicateCount, duplicateGroups)`.
A group is appended exactly when the returned error is `nil`. -/
def showStep (st : Int × List DuplicateGroup) (group : UserFileGroupBySize) :
    Int × List DuplicateGroup :=
  let r := DupGroupFromSizeGroup group st.1
  match r.2.2, r.1 with
  | none, some dupGroup => (r.2.1, st.2 ++ [dupGroup])
  | _, _ => (r.2.1, st.2)

/-- The loop of `showDuplicates`: the counter starts at `0`, the result is the final
counter and the collected `duplicateGroups`, which the function then prints in order. -/
def showDuplicatesLoop (groups : List UserFileGroupBySize) : Int × List DuplicateGroup :=
  groups.foldl showStep (0, [])

/-- The duplicate groups `showDuplicates` collects and prints. -/
def showDuplicates (groups : List UserFileGroupBySize) : List DuplicateGroup :=
  (showDuplicatesLoop groups).2

/-! ## Auxiliary functions describing the duplicate detector -/

/-- The 64-bit range of a Go `int`. -/
def IsInt64 (x : Int) : Prop :=
  -(2 ^ 63) ≤ x ∧ x < 2 ^ 63

/-- The entries made by numbering the given files one after the other, the counter being
`c` before the first. -/
def numbered : Int → List UserFile → List Duplicate
  | _, [] => []
  | c, f :: fs => NewDuplicate f (wrapInt64 (c + 1)) :: numbered (wrapInt64 (c + 1)) fs

/-- The counter after numbering the given files, starting from `c`. -/
def counterAfter : Int → List UserFile → Int
  | c, [] => c
  | c, _ :: fs => counterAfter (wrapInt64 (c + 1)) fs

/-- The `Hash` field after the given files were recorded one after the other, `h` being
its value before: it is overwritten only while it is the empty string. -/
def pickHash : String → List UserFile → String
  | h, [] => h
  | h, f :: fs => pickHash (if h = "" then f.Hash else h) fs

/-- The members of a size group that end up as entries: all but the first, followed by
the first when its hash is the hash of one of the others. -/
def reported : List UserFile → List UserFile
  | [] => []
  | a :: rest => rest ++ (if containsString (rest.map (fun f => f.Hash)) a.Hash then [a] else [])

/-- The files that end up as entries over a whole run of `showDuplicates`, in output
order: those of every group of at least two members. -/
def reportedAll (groups : List UserFileGroupBySize) : List UserFile :=
  (groups.filter (fun g => decide (2 ≤ g.files.length))).flatMap (fun g => reported g.files)

/-! ## Sorting in `main` -/

/-- The comparator `main` hands to `sort.Slice`, on the two groups it compares. -/
def sizeLess (isAscending : Bool) (a b : UserFileGroupBySize) : Bool :=
  if isAscending then decide (a.Size < b.Size) else decide (a.Size > b.Size)

/-- What `sort.Slice` promises for a comparator `less`: the slice afterwards holds the
same elements, and no later element is `less` than an earlier one. Nothing is promised
about the order of elements that compare as equal. -/
def IsSliceSorted (less : UserFileGroupBySize → UserFileGroupBySize → Bool)
    (input output : List UserFileGroupBySize) : Prop :=
  output.Perm input ∧ output.Pairwise (fun a b => less b a = false)

/-- The inner loop of the insertion sort of Go's package `sort`
(`for j := i; j > a && less(j, j-1); j-- { swap(j, j-1) }`): the element `x` at index `i`
moves down past the elements it is `less` than. The part of the slice before `x` is
given last element first. -/
def insertBack (less : UserFileGroupBySize → UserFileGroupBySize → Bool)
    (x : UserFileGroupBySize) : List UserFileGroupBySize → List UserFileGroupBySize
  | [] => [x]
  | y :: rest => if less x y then y :: insertBack less x rest else x :: y :: rest

/-- The function `sort.Slice` of the Go standard library, as the insertion sort that it
runs on a slice of at most 12 elements: the elements are taken from left to right and
each is moved down into the part already sorted. On a longer slice the library sorts by
other means, and its result can differ from this one only in the order of elements of
which neither is `less` than the other; the groups `main` sorts have pairwise different
sizes, so there the result is this one whatever the length. -/
def sortSlice (less : UserFileGroupBySize → UserFileGroupBySize → Bool)
    (x : List UserFileGroupBySize) : List UserFileGroupBySize :=
  (x.foldl (fun sortedPart group => insertBack less group sortedPart) []).reverse

/-- The sort step of `main`: `sort.Slice` on the groups with the comparator of `main`. -/
def sortGroups (isAscending : Bool) (groups : List UserFileGroupBySize) :
    List UserFileGroupBySize :=
  sortSlice (sizeLess isAscending) groups

/-- The loop of `getSortingOption`. Each turn scans one answer with `fmt.Scanf`; `scans`
holds the outcomes, the number scanned or nothing when the scan failed, in which case
`answer` keeps the value it had. The answer 1 returns `false`, the answer 2 returns
`true`, anything else asks again. With no outcome left the loop has not returned. -/
def sortingLoop : Int → List (Option Int) → Option Bool
  | _, [] => none
  | answer, scan :: more =>
    if scan.getD answer = 1 then some false
    else if scan.getD answer = 2 then some true
    else sortingLoop (scan.getD answer) more

/-- The function `getSortingOption`: `answer` starts as 0. The result is `isAscending`. -/
def getSortingOption (scans : List (Option Int)) : Option Bool :=
  sortingLoop 0 scans

/-! ## Extension filter and file walker -/

/-- The function `os.IsPathSeparator` on a Unix build: the separator is the slash. -/
def IsPathSeparator (c : Char) : Bool :=
  decide (c = '/')

/-- The loop of `filepath.Ext`: `before` holds the characters not yet visited, last
first, and `suffix` the characters already passed. The loop stops at a separator, and
returns the path from the first dot it meets. -/
def extScan : List Char → List Char → List Char
  | [], _ => []
  | c :: before, suffix =>
    if IsPathSeparator c then []
    else if c = '.' then c :: suffix
    else extScan before (c :: suffix)

/-- The function `filepath.Ext` of the Go standard library. -/
def Ext (path : String) : String :=
  String.mk (extScan path.data.reverse [])

/-- The final element of a path: what follows its last separator. -/
def finalElement (path : List Char) : List Char :=
  (path.reverse.takeWhile (fun c => !IsPathSeparator c)).reverse

/-- The extension in words: the part of the final path element from its last dot on, the
dot included, and nothing when the final element has no dot. -/
def extensionOf (path : List Char) : List Char :=
  if '.' ∈ finalElement path then
    '.' :: ((finalElement path).reverse.takeWhile (fun c => decide (c ≠ '.'))).reverse
  else []

/-- The record `ExtFilter` of `main.go`. -/
structure ExtFilter where
  ext : String
deriving DecidableEq, Repr

/-- Constructor `NewExtFilter`: the token with a dot in front. -/
def NewExtFilter (ext : String) : ExtFilter :=
  { ext := "." ++ ext }

/-- Method `ShouldFilter`. -/
def ExtFilter.ShouldFilter (f : ExtFilter) : Bool :=
  decide (f.ext ≠ ".")

/-- Method `Filter`. -/
def ExtFilter.Filter (f : ExtFilter) : String :=
  f.ext

/-- What the program reads of an `os.FileInfo`. -/
structure FileInfo where
  Name : String
  Size : Int
  IsDir : Bool
deriving DecidableEq, Repr

/-- One call `filepath.Walk` makes to the walk function: the path, the file info, which
is `nil` when the entry could not be examined, and the error met on the way, if any. -/
structure Visit where
  path : String
  info : Option FileInfo
  err : Option String
deriving DecidableEq, Repr

/-- The ways the program stops without returning: a run-time panic on a `nil` value, and
`log.Fatal`. -/
inductive Abort where
  | nilDereference
  | fatal
deriving DecidableEq, Repr

/-- Constructor `NewUserFile`. `readHash` stands for opening the file and hashing its
content: the lowercase hex MD5 digest, or nothing when opening or reading fails, in
which case the program ends in `log.Fatal`. -/
def NewUserFile (readHash : String → Option String) (path : String) (info : FileInfo) :
    Except Abort UserFile :=
  match readHash path with
  | none => Except.error Abort.fatal
  | some hash =>
    Except.ok { Name := info.Name, Path := path, Size := info.Size,
                FileExtension := Ext path, Hash := hash }

/-- The walk function `GetFiles` passes to `filepath.Walk`, on the slice `files` it has
captured: the result is the slice afterwards and the error returned. The parameter `err`
is not looked at, and `info.IsDir()` is called first, whatever `info` is. -/
def walkFn (readHash : String → Option String) (filter : ExtFilter) (files : List UserFile)
    (v : Visit) : Except Abort (List UserFile × Option String) :=
  match v.info with
  | none => Except.error Abort.nilDereference
  | some info =>
    if info.IsDir then Except.ok (files, none)
    else if filter.ShouldFilter && decide (Ext v.path ≠ filter.Filter) then
      Except.ok (files, none)
    else
      match NewUserFile readHash v.path info with
      | Except.error e => Except.error e
      | Except.ok file => Except.ok (files ++ [file], none)

/-- The calls of `filepath.Walk`, one after the other: the walk ends with the first error
the walk function returns, and that error is what `Walk` returns. `visits` are the calls
the tree gives rise to while the walk function returns `nil`. -/
def walkLoop (readHash : String → Option String) (filter : ExtFilter) :
    List Visit → List UserFile → Except Abort (List UserFile × Option String)
  | [], files => Except.ok (files, none)
  | v :: vs, files =>
    match walkFn readHash filter files v with
    | Except.error e => Except.error e
    | Except.ok (files2, some e) => Except.ok (files2, some e)
    | Except.ok (files2, none) => walkLoop readHash filter vs files2

/-- The function `GetFiles`: the records collected and the error of the walk. -/
def GetFiles (readHash : String → Option String) (filter : ExtFilter) (visits : List Visit) :
    Except Abort (List UserFile × Option String) :=
  walkLoop readHash filter visits []

/-- The calls `filepath.Walk` makes for a root that cannot be examined: one call, for the
root, with no file info and the error of `os.Lstat`. -/
def rootFailure (root : String) (e : String) : List Visit :=
  [{ path := root, info := none, err := some e }]

/-! ## Concrete records -/

/-- MD5 of the five bytes `hello`, as lowercase hex. -/
def md5Hello : String := "5d41402abc4b2a76b9719d911017c592"

/-- MD5 of the five bytes `world`, as lowercase hex. -/
def md5World : String := "7d793037a0760186574b0282f2f435e7"

/-- The record of `a.txt`, content `hello`. -/
def fileA : UserFile :=
  { Name := "a.txt", Path := "a.txt", Size := 5, FileExtension := ".txt", Hash := md5Hello }

/-- The record of `b.txt`, content `hello`. -/
def fileB : UserFile :=
  { Name := "b.txt", Path := "b.txt", Size := 5, FileExtension := ".txt", Hash := md5Hello }

/-- The record of `c.txt`, content `world`. -/
def fileC : UserFile :=
  { Name := "c.txt", Path := "c.txt", Size := 5, FileExtension := ".txt", Hash := md5World }

/-- The record of an empty file `e.txt`; its hash is MD5 of no bytes. -/
def fileEmpty : UserFile :=
  { Name := "e.txt", Path := "e.txt", Size := 0, FileExtension := ".txt",
    Hash := "d41d8cd98f00b204e9800998ecf8427e" }

/-- The record of `d.bin`, seven bytes long. -/
def fileD : UserFile :=
  { Name := "d.bin", Path := "d.bin", Size := 7, FileExtension := ".bin",
    Hash := "0123456789abcdef0123456789abcdef" }

/-! ## Lemmas on the size grouper -/

theorem contains_iff (s : List Int) (e : Int) : contains s e = true ↔ e ∈ s := by
  induction s with
  | nil => simp [contains]
  | cons a s ih =>
    by_cases h : a = e
    · simp [contains, h]
    · simp [contains, h, ih, Ne.symm h]

theorem containsString_iff (s : List String) (e : String) :
    containsString s e = true ↔ e ∈ s := by
  induction s with
  | nil => simp [containsString]
  | cons a s ih =>
    by_cases h : a = e
    · simp [containsString, h]
    · simp [containsString, h, ih, Ne.symm h]

/-- The body of the first loop, with the search read as list membership. -/
theorem initGroupsStep_eq (st : List Int × List UserFileGroupBySize) (f : UserFile) :
    initGroupsStep st f
      = if f.Size ≠ 0 ∧ f.Size ∉ st.1 then
          (st.1 ++ [f.Size], st.2 ++ [NewUserFileGroupBySize f.Size])
        else st := by
  unfold initGroupsStep
  by_cases hz : f.Size = 0
  · simp [hz]
  · by_cases hm : f.Size ∈ st.1
    · have hc := (contains_iff _ _).2 hm
      simp [hz, hm, hc]
    · have hc : contains st.1 f.Size = false := by
        cases h : contains st.1 f.Size with
        | false => rfl
        | true => exact absurd ((contains_iff _ _).1 h) hm
      simp [hz, hm, hc]

theorem initGroups_snoc (pre : List UserFile) (f : UserFile)
    (st : List Int × List UserFileGroupBySize) :
    (pre ++ [f]).foldl initGroupsStep st = initGroupsStep (pre.foldl initGroupsStep st) f := by
  simp [List.foldl_append]

/-- Invariant of the first loop: `sizes` is `0` followed by the sizes of the groups made
so far, and every group made so far is empty. -/
theorem initGroups_inv (files : List UserFile) :
    (files.foldl initGroupsStep ([0], [])).1
        = 0 :: (files.foldl initGroupsStep ([0], [])).2.map (fun g => g.Size)
      ∧ ∀ g ∈ (files.foldl initGroupsStep ([0], [])).2, g.files = [] := by
  induction files using List.reverseRecOn with
  | nil => simp
  | append_singleton pre f ih =>
    rw [initGroups_snoc, initGroupsStep_eq]
    generalize pre.foldl initGroupsStep ([0], []) = st at ih ⊢
    obtain ⟨h1, h2⟩ := ih
    split_ifs with hc
    · refine ⟨by simp [h1, NewUserFileGroupBySize], ?_⟩
      intro g hg
      rcases List.mem_append.1 hg with hg | hg
      · exact h2 g hg
      · simp [NewUserFileGroupBySize] at hg
        simp [hg]
    · exact ⟨h1, h2⟩

theorem openedSizes_nil : openedSizes [] = [] := rfl

/-- One step of the first loop, on the list of group sizes. -/
theorem openedSizes_snoc (pre : List UserFile) (f : UserFile) :
    openedSizes (pre ++ [f])
      = if f.Size ≠ 0 ∧ f.Size ∉ openedSizes pre then openedSizes pre ++ [f.Size]
        else openedSizes pre := by
  unfold openedSizes
  rw [initGroups_snoc, initGroupsStep_eq]
  have h1 := (initGroups_inv pre).1
  generalize pre.foldl initGroupsStep ([0], []) = st at h1 ⊢
  by_cases hz : f.Size = 0
  · simp [hz]
  · have hiff : f.Size ∈ st.1 ↔ f.Size ∈ st.2.map (fun g => g.Size) := by
      rw [h1, List.mem_cons]
      exact ⟨fun h => h.resolve_left hz, Or.inr⟩
    by_cases hm : f.Size ∈ st.1
    · have hm2 := hiff.1 hm
      rw [if_neg (fun h => h.2 hm), if_neg (fun h => h.2 hm2)]
    · have hm2 : f.Size ∉ st.2.map (fun g => g.Size) := fun h => hm (hiff.2 h)
      rw [if_pos ⟨hz, hm⟩, if_pos ⟨hz, hm2⟩]
      simp [NewUserFileGroupBySize]

/-- A size has a group exactly when it is nonzero and occurs in the input. -/
theorem mem_openedSizes (files : List UserFile) (s : Int) :
    s ∈ openedSizes files ↔ s ≠ 0 ∧ s ∈ files.map (fun f => f.Size) := by
  induction files using List.reverseRecOn with
  | nil => simp [openedSizes_nil]
  | append_singleton pre f ih =>
    rw [openedSizes_snoc]
    split_ifs with hc
    · rw [List.mem_append, ih]
      simp only [List.mem_singleton, List.map_append, List.map_cons, List.map_nil,
        List.mem_append]
      constructor
      · rintro (h | h)
        · exact ⟨h.1, Or.inl h.2⟩
        · exact ⟨h ▸ hc.1, Or.inr h⟩
      · rintro ⟨h0, h | h⟩
        · exact Or.inl ⟨h0, h⟩
        · exact Or.inr h
    · rw [ih]
      simp only [List.map_append, List.map_cons, List.map_nil, List.mem_append,
        List.mem_singleton]
      constructor
      · rintro ⟨h0, h⟩
        exact ⟨h0, Or.inl h⟩
      · rintro ⟨h0, h | h⟩
        · exact ⟨h0, h⟩
        · subst h
          by_contra hn
          exact hc ⟨h0, fun hm => hn (ih.1 hm)⟩

/-- No size gets two groups. -/
theorem openedSizes_nodup (files : List UserFile) : (openedSizes files).Nodup := by
  induction files using List.reverseRecOn with
  | nil => simp [openedSizes_nil]
  | append_singleton pre f ih =>
    rw [openedSizes_snoc]
    split_ifs with hc
    · rw [List.nodup_append]
      refine ⟨ih, List.nodup_singleton _, ?_⟩
      intro a ha hb
      rw [List.mem_singleton] at hb
      exact hc.2 (hb ▸ ha)
    · exact ih

/-- The groups are opened in the order in which their sizes first occur in the input. -/
theorem openedSizes_order (files : List UserFile) :
    (openedSizes files).Pairwise (fun a b =>
      (files.map (fun f => f.Size)).indexOf a < (files.map (fun f => f.Size)).indexOf b) := by
  induction files using List.reverseRecOn with
  | nil => simp [openedSizes_nil]
  | append_singleton pre f ih =>
    have hold : ∀ a, a ∈ openedSizes pre →
        ((pre ++ [f]).map (fun f => f.Size)).indexOf a
          = (pre.map (fun f => f.Size)).indexOf a := by
      intro a ha
      rw [List.map_append]
      exact List.indexOf_append_of_mem ((mem_openedSizes pre a).1 ha).2
    have hkeep : (openedSizes pre).Pairwise (fun a b =>
        ((pre ++ [f]).map (fun f => f.Size)).indexOf a
          < ((pre ++ [f]).map (fun f => f.Size)).indexOf b) := by
      refine List.Pairwise.imp_of_mem ?_ ih
      intro a b ha hb hab
      rw [hold a ha, hold b hb]
      exact hab
    rw [openedSizes_snoc]
    split_ifs with hc
    · rw [List.pairwise_append]
      refine ⟨hkeep, List.pairwise_singleton _ _, ?_⟩
      intro a ha b hb
      rw [List.mem_singleton] at hb
      subst hb
      have hnot : f.Size ∉ pre.map (fun f => f.Size) := fun hm =>
        hc.2 ((mem_openedSizes pre f.Size).2 ⟨hc.1, hm⟩)
      rw [hold a ha]
      rw [List.map_append, List.indexOf_append_of_not_mem hnot]
      have hlt := List.indexOf_lt_length.2 ((mem_openedSizes pre a).1 ha).2
      simp only [List.map_cons, List.map_nil, List.indexOf_cons_self, add_zero]
      exact hlt
    · exact hkeep

/-- The inner loop of the second phase appends to a group the nonzero-size files of its
size, in input order. -/
theorem addFiles_fold (files : List UserFile) (g : UserFileGroupBySize) :
    files.foldl addFilesStep g
      = { Size := g.Size,
          files := g.files ++ files.filter (fun f => decide (f.Size ≠ 0 ∧ g.Size = f.Size)) } := by
  induction files generalizing g with
  | nil => simp
  | cons f fs ih =>
    rw [List.foldl_cons, ih]
    unfold addFilesStep UserFileGroupBySize.AddFile
    by_cases hz : f.Size = 0
    · simp [hz]
    · by_cases he : g.Size = f.Size
      · simp [hz, he, List.filter_cons]
      · simp [hz, he, List.filter_cons]

/-- Closed form of `groupByFileSize`: one group per opened size, holding the input files
of that size in input order. -/
theorem groupByFileSize_eq (files : List UserFile) :
    groupByFileSize files
      = (openedSizes files).map (fun s =>
          { Size := s, files := files.filter (fun f => decide (f.Size = s)) }) := by
  unfold groupByFileSize openedSizes
  have hinv := (initGroups_inv files).2
  have hmem : ∀ g ∈ (files.foldl initGroupsStep ([0], [])).2, g.Size ≠ 0 := by
    intro g hg
    exact ((mem_openedSizes files g.Size).1 (List.mem_map_of_mem _ hg)).1
  generalize (files.foldl initGroupsStep ([0], [])).2 = gs at hinv hmem
  rw [List.map_map]
  apply List.map_congr_left
  intro g hg
  rw [addFiles_fold, hinv g hg]
  simp only [Function.comp, List.nil_append]
  congr 1
  apply List.filter_congr
  intro f _
  have h0 := hmem g hg
  by_cases he : f.Size = g.Size
  · simp [he, h0]
  · simp [he, Ne.symm he]

/-- Every group has a size that was opened, and holds the input files of its size. -/
theorem mem_groupByFileSize (files : List UserFile) (g : UserFileGroupBySize)
    (hg : g ∈ groupByFileSize files) :
    g.Size ∈ openedSizes files ∧
      g.files = files.filter (fun f => decide (f.Size = g.Size)) := by
  rw [groupByFileSize_eq, List.mem_map] at hg
  obtain ⟨s, hs, rfl⟩ := hg
  exact ⟨hs, rfl⟩

theorem groupByFileSize_sizes (files : List UserFile) :
    (groupByFileSize files).map (fun g => g.Size) = openedSizes files := by
  rw [groupByFileSize_eq, List.map_map]
  exact List.map_id _

/-- Splitting a list by a duplicate-free list of keys and concatenating the classes
rearranges the elements that have one of the keys. -/
theorem flatMap_filter_perm (files : List UserFile) (keys : List Int) (hk : keys.Nodup) :
    (keys.flatMap (fun s => files.filter (fun f => decide (f.Size = s)))).Perm
      (files.filter (fun f => decide (f.Size ∈ keys))) := by
  induction keys with
  | nil => simp
  | cons s keys ih =>
    rw [List.nodup_cons] at hk
    rw [List.flatMap_cons]
    have hsplit := List.filter_append_perm (fun f : UserFile => decide (f.Size = s))
      (files.filter (fun f => decide (f.Size ∈ s :: keys)))
    rw [List.filter_filter, List.filter_filter] at hsplit
    have e1 : files.filter (fun a => decide (a.Size = s) && decide (a.Size ∈ s :: keys))
        = files.filter (fun f => decide (f.Size = s)) := by
      apply List.filter_congr
      intro f _
      by_cases h : f.Size = s <;> simp [h]
    have e2 : files.filter (fun a => (!decide (a.Size = s)) && decide (a.Size ∈ s :: keys))
        = files.filter (fun f => decide (f.Size ∈ keys)) := by
      apply List.filter_congr
      intro f _
      by_cases h : f.Size = s
      · simp [h, hk.1]
      · simp [h]
    rw [e1, e2] at hsplit
    exact (List.Perm.append_left _ (ih hk.2)).trans hsplit

/-- C1. For every list of file records, `groupByFileSize` returns one group per distinct
nonzero `Size` of the input (the group sizes are pairwise distinct, and a size has a group
exactly when it is nonzero and is the size of an input record), the groups are ordered by
the first occurrence of their size in the input, each group's files are the sub-list of
all input records of the group's size in input order, and so every member has the size of
its group. -/
theorem groupByFileSize_characterisation (files : List UserFile) :
    ((groupByFileSize files).map (fun g => g.Size)).Nodup
      ∧ (∀ s : Int, s ∈ (groupByFileSize files).map (fun g => g.Size) ↔
          s ≠ 0 ∧ ∃ f ∈ files, f.Size = s)
      ∧ ((groupByFileSize files).map (fun g => g.Size)).Pairwise (fun a b =>
          (files.map (fun f => f.Size)).indexOf a < (files.map (fun f => f.Size)).indexOf b)
      ∧ (∀ g ∈ groupByFileSize files,
          g.files = files.filter (fun f => decide (f.Size = g.Size)))
      ∧ (∀ g ∈ groupByFileSize files, ∀ f ∈ g.files, f.Size = g.Size) := by
  rw [groupByFileSize_sizes]
  refine ⟨openedSizes_nodup files, ?_, openedSizes_order files, ?_, ?_⟩
  · intro s
    rw [mem_openedSizes, List.mem_map]
  · intro g hg
    exact (mem_groupByFileSize files g hg).2
  · intro g hg f hf
    rw [(mem_groupByFileSize files g hg).2, List.mem_filter] at hf
    simpa using hf.2

/-- C2. For every list of file records, the groups of `groupByFileSize` partition the
nonzero-size records: the concatenation of the groups' files is a rearrangement of the
input records with `Size ≠ 0` (each occurs in the groups as many times as in the input),
no record is a member of two groups, no record with `Size = 0` is a member of a group,
and no group has `Size` 0. -/
theorem groupByFileSize_partition (files : List UserFile) :
    ((groupByFileSize files).flatMap (fun g => g.files)).Perm
        (files.filter (fun f => decide (f.Size ≠ 0)))
      ∧ (groupByFileSize files).Pairwise (fun g h => ∀ f, f ∈ g.files → f ∉ h.files)
      ∧ (∀ g ∈ groupByFileSize files, ∀ f ∈ g.files, f.Size ≠ 0)
      ∧ (∀ g ∈ groupByFileSize files, g.Size ≠ 0) := by
  have hsize : ∀ g ∈ groupByFileSize files, g.Size ≠ 0 := fun g hg =>
    ((mem_openedSizes files g.Size).1 (mem_groupByFileSize files g hg).1).1
  have hmemb : ∀ g ∈ groupByFileSize files, ∀ f ∈ g.files, f.Size = g.Size := by
    intro g hg f hf
    rw [(mem_groupByFileSize files g hg).2, List.mem_filter] at hf
    simpa using hf.2
  refine ⟨?_, ?_, ?_, hsize⟩
  · have hperm := flatMap_filter_perm files (openedSizes files) (openedSizes_nodup files)
    have e1 : (groupByFileSize files).flatMap (fun g => g.files)
        = (openedSizes files).flatMap
            (fun s => files.filter (fun f => decide (f.Size = s))) := by
      rw [groupByFileSize_eq, List.flatMap_map]
    have e2 : files.filter (fun f => decide (f.Size ∈ openedSizes files))
        = files.filter (fun f => decide (f.Size ≠ 0)) := by
      apply List.filter_congr
      intro f hf
      have := mem_openedSizes files f.Size
      have hin : f.Size ∈ files.map (fun f => f.Size) := List.mem_map_of_mem _ hf
      by_cases h0 : f.Size = 0
      · have hno : f.Size ∉ openedSizes files := fun h => (this.1 h).1 h0
        simp [h0, hno, h0 ▸ hno]
      · have hyes : f.Size ∈ openedSizes files := this.2 ⟨h0, hin⟩
        simp [h0, hyes]
    rw [e1, ← e2]
    exact hperm
  · have hnd : ((groupByFileSize files).map (fun g => g.Size)).Nodup := by
      rw [groupByFileSize_sizes]
      exact openedSizes_nodup files
    rw [List.Nodup, List.pairwise_map] at hnd
    refine List.Pairwise.imp_of_mem ?_ hnd
    intro g h hg hh hne f hf1 hf2
    exact hne ((hmemb g hg f hf1).symm.trans (hmemb h hh f hf2))
  · intro g hg f hf
    rw [hmemb g hg f hf]
    exact hsize g hg

/-! ## Lemmas on the counter -/

theorem wrapInt64_of_isInt64 (x : Int) (h : IsInt64 x) : wrapInt64 x = x := by
  unfold IsInt64 at h
  unfold wrapInt64
  rw [Int.emod_eq_of_lt (by omega) (by omega)]
  omega

theorem isInt64_wrapInt64 (x : Int) : IsInt64 (wrapInt64 x) := by
  unfold IsInt64 wrapInt64
  have h1 := Int.emod_nonneg (x + 2 ^ 63) (show (2 ^ 64 : Int) ≠ 0 by norm_num)
  have h2 := Int.emod_lt_of_pos (x + 2 ^ 63) (show (0 : Int) < 2 ^ 64 by norm_num)
  constructor <;> omega

/-- Reduction commutes with adding to an already reduced value. -/
theorem wrapInt64_add (x k : Int) : wrapInt64 (wrapInt64 x + k) = wrapInt64 (x + k) := by
  unfold wrapInt64
  omega

theorem numbered_append (c : Int) (xs ys : List UserFile) :
    numbered c (xs ++ ys) = numbered c xs ++ numbered (counterAfter c xs) ys := by
  induction xs generalizing c with
  | nil => rfl
  | cons x xs ih => simp [numbered, counterAfter, ih]

theorem counterAfter_append (c : Int) (xs ys : List UserFile) :
    counterAfter c (xs ++ ys) = counterAfter (counterAfter c xs) ys := by
  induction xs generalizing c with
  | nil => rfl
  | cons x xs ih => simp [counterAfter, ih]

theorem numbered_length (c : Int) (fs : List UserFile) : (numbered c fs).length = fs.length := by
  induction fs generalizing c with
  | nil => rfl
  | cons f fs ih => simp [numbered, ih]

theorem numbered_files (c : Int) (fs : List UserFile) :
    (numbered c fs).map (fun d => d.File) = fs := by
  induction fs generalizing c with
  | nil => rfl
  | cons f fs ih => simp [numbered, NewDuplicate, ih]

/-- Without overflow the counter moves up by the number of files numbered. -/
theorem counterAfter_eq (c : Int) (fs : List UserFile) (hc : IsInt64 c)
    (hb : c + fs.length < 2 ^ 63) : counterAfter c fs = c + fs.length := by
  induction fs generalizing c with
  | nil => simp [counterAfter]
  | cons f fs ih =>
    simp only [List.length_cons, Nat.cast_add, Nat.cast_one] at hb
    have h1 : IsInt64 (c + 1) := ⟨by have := hc.1; omega, by omega⟩
    rw [counterAfter, wrapInt64_of_isInt64 _ h1, ih (c + 1) h1 (by omega)]
    simp only [List.length_cons, Nat.cast_add, Nat.cast_one]
    ring

/-- Without overflow the numbers given are `c + 1`, `c + 2`, and so on. -/
theorem numbered_numbers (c : Int) (fs : List UserFile) (hc : IsInt64 c)
    (hb : c + fs.length < 2 ^ 63) :
    (numbered c fs).map (fun d => d.Number)
      = (List.range fs.length).map (fun (i : Nat) => c + ((i : Int) + 1)) := by
  induction fs generalizing c with
  | nil => rfl
  | cons f fs ih =>
    simp only [List.length_cons, Nat.cast_add, Nat.cast_one] at hb
    have h1 : IsInt64 (c + 1) := ⟨by have := hc.1; omega, by omega⟩
    rw [numbered, wrapInt64_of_isInt64 _ h1, List.map_cons, ih (c + 1) h1 (by omega)]
    rw [List.length_cons, List.range_succ_eq_map, List.map_cons, List.map_map]
    simp only [NewDuplicate, Nat.cast_zero, zero_add, List.cons.injEq, true_and]
    apply List.map_congr_left
    intro i _
    simp only [Function.comp, Nat.cast_succ]
    ring

/-! ## Lemmas on the duplicate detector -/

/-- The check after the append: a hash is always found in a list it was just appended to. -/
theorem containsString_append_self (hashes : List String) (h : String) :
    containsString (hashes ++ [h]) h = true := by
  rw [containsString_iff]
  simp

/-- The loop of `DupGroupFromSizeGroup` over the members after the first. -/
theorem dupLoop_eq (rest : List UserFile) (n : Nat) (st : DupState) :
    (indexed (n + 1) rest).foldl dupStep st
      = { hashes := st.hashes ++ rest.map (fun f => f.Hash),
          lastCount := counterAfter st.lastCount rest,
          dupGroup :=
            { Size := st.dupGroup.Size,
              Hash := pickHash st.dupGroup.Hash rest,
              Files := st.dupGroup.Files ++ numbered st.lastCount rest } } := by
  induction rest generalizing n st with
  | nil => simp [indexed, counterAfter, pickHash, numbered]
  | cons f fs ih =>
    rw [indexed, List.foldl_cons, ih]
    have hstep : dupStep st (n + 1, f)
        = { hashes := st.hashes ++ [f.Hash],
            lastCount := wrapInt64 (st.lastCount + 1),
            dupGroup :=
              { Size := st.dupGroup.Size,
                Hash := if st.dupGroup.Hash = "" then f.Hash else st.dupGroup.Hash,
                Files := st.dupGroup.Files ++ [NewDuplicate f (wrapInt64 (st.lastCount + 1))] } } := by
      unfold dupStep
      simp [containsString_append_self]
    rw [hstep]
    simp [counterAfter, pickHash, numbered]

/-- Closed form of `DupGroupFromSizeGroup` on a group of at least two members. -/
theorem DupGroupFromSizeGroup_eq (size : Int) (a b : UserFile) (rest : List UserFile)
    (c : Int) :
    DupGroupFromSizeGroup { Size := size, files := a :: b :: rest } c
      = (some { Size := a.Size, Hash := pickHash "" (b :: rest),
                Files := numbered c (reported (a :: b :: rest)) },
          counterAfter c (reported (a :: b :: rest)), none) := by
  unfold DupGroupFromSizeGroup
  have hlen : ¬ (a :: b :: rest).length < 2 := by simp
  simp only [hlen, if_false]
  rw [indexed, List.foldl_cons]
  have h0 : ∀ st : DupState, dupStep st (0, a) = st := by
    intro st
    simp [dupStep]
  rw [h0, dupLoop_eq]
  simp only [List.drop_one, List.singleton_append, List.tail_cons, List.nil_append]
  unfold reported
  by_cases hm : containsString ((b :: rest).map (fun f => f.Hash)) a.Hash = true
  · simp only [hm, if_true]
    rw [numbered_append, counterAfter_append]
    simp [numbered, counterAfter]
  · simp only [hm, if_false]
    simp

/-- The error case of `DupGroupFromSizeGroup`. -/
theorem DupGroupFromSizeGroup_short (group : UserFileGroupBySize) (c : Int)
    (h : group.files.length < 2) :
    DupGroupFromSizeGroup group c = (none, c, some tooFewFiles) := by
  unfold DupGroupFromSizeGroup
  simp [h]

/-- A group with at least two members is of the shape the closed form is stated for. -/
theorem exists_two_of_length (group : UserFileGroupBySize) (h : ¬ group.files.length < 2) :
    ∃ a b rest, group = { Size := group.Size, files := a :: b :: rest } := by
  obtain ⟨size, files⟩ := group
  match files, h with
  | [], h => simp at h
  | [_], h => simp at h
  | a :: b :: rest, _ => exact ⟨a, b, rest, rfl⟩

theorem reported_length_le (files : List UserFile) : (reported files).length ≤ files.length := by
  cases files with
  | nil => simp [reported]
  | cons a rest =>
    simp only [reported]
    split_ifs <;> simp

theorem isInt64_counterAfter (c : Int) (fs : List UserFile) (hc : IsInt64 c) :
    IsInt64 (counterAfter c fs) := by
  induction fs generalizing c with
  | nil => exact hc
  | cons f fs ih => exact ih _ (isInt64_wrapInt64 _)

/-- The counter after numbering, overflow included. -/
theorem counterAfter_wrap (c : Int) (fs : List UserFile) (hc : IsInt64 c) :
    counterAfter c fs = wrapInt64 (c + fs.length) := by
  induction fs generalizing c with
  | nil => simp [counterAfter, wrapInt64_of_isInt64 c hc]
  | cons f fs ih =>
    rw [counterAfter, ih _ (isInt64_wrapInt64 _), wrapInt64_add]
    congr 1
    simp only [List.length_cons, Nat.cast_add, Nat.cast_one]
    ring

/-- One turn of the loop of `showDuplicates` on a group of fewer than two members. -/
theorem showStep_short (st : Int × List DuplicateGroup) (group : UserFileGroupBySize)
    (h : group.files.length < 2) : showStep st group = st := by
  unfold showStep
  rw [DupGroupFromSizeGroup_short group st.1 h]

/-- One turn of the loop of `showDuplicates` on a group of at least two members. -/
theorem showStep_long (st : Int × List DuplicateGroup) (group : UserFileGroupBySize)
    (h : ¬ group.files.length < 2) :
    ∃ d, (DupGroupFromSizeGroup group st.1).1 = some d
      ∧ d.Files = numbered st.1 (reported group.files)
      ∧ showStep st group = (counterAfter st.1 (reported group.files), st.2 ++ [d]) := by
  obtain ⟨a, b, rest, hg⟩ := exists_two_of_length group h
  rw [hg]
  unfold showStep
  rw [DupGroupFromSizeGroup_eq]
  exact ⟨_, rfl, rfl, rfl⟩

/-- The loop of `showDuplicates` only appends to the groups collected so far. -/
theorem showLoop_acc (groups : List UserFileGroupBySize) (c : Int) (acc : List DuplicateGroup) :
    groups.foldl showStep (c, acc)
      = ((groups.foldl showStep (c, [])).1, acc ++ (groups.foldl showStep (c, [])).2) := by
  induction groups generalizing c acc with
  | nil => simp
  | cons g gs ih =>
    rw [List.foldl_cons, List.foldl_cons]
    by_cases h : g.files.length < 2
    · rw [showStep_short _ g h, showStep_short _ g h]
      exact ih c acc
    · obtain ⟨d, _, _, e1⟩ := showStep_long (c, acc) g h
      obtain ⟨d2, _, _, e2⟩ := showStep_long (c, []) g h
      rw [e1, e2]
      have hd : d = d2 := by
        have := e1
        unfold showStep at e1 e2
        obtain ⟨a, b, rest, hg⟩ := exists_two_of_length g h
        rw [hg, DupGroupFromSizeGroup_eq] at e1 e2
        simp only [Prod.mk.injEq, List.nil_append, List.cons.injEq, and_true, true_and,
          List.append_cancel_left_eq] at e1 e2
        rw [← e1, ← e2]
      subst hd
      rw [ih _ (acc ++ [d]), ih _ ([] ++ [d])]
      simp

/-- The loop of `showDuplicates` on a list that starts with a group of fewer than two
members. -/
theorem showLoop_cons_short (g : UserFileGroupBySize) (gs : List UserFileGroupBySize)
    (c : Int) (h : g.files.length < 2) :
    (g :: gs).foldl showStep (c, []) = gs.foldl showStep (c, []) := by
  rw [List.foldl_cons, showStep_short _ g h]

/-- The loop of `showDuplicates` on a list that starts with a group of at least two
members. -/
theorem showLoop_cons_long (g : UserFileGroupBySize) (gs : List UserFileGroupBySize)
    (c : Int) (h : ¬ g.files.length < 2) :
    ∃ d, (DupGroupFromSizeGroup g c).1 = some d
      ∧ d.Files = numbered c (reported g.files)
      ∧ (g :: gs).foldl showStep (c, [])
          = ((gs.foldl showStep (counterAfter c (reported g.files), [])).1,
              d :: (gs.foldl showStep (counterAfter c (reported g.files), [])).2) := by
  obtain ⟨d, h1, h2, h3⟩ := showStep_long (c, []) g h
  refine ⟨d, h1, h2, ?_⟩
  rw [List.foldl_cons, h3, showLoop_acc]
  simp

theorem reportedAll_nil : reportedAll [] = [] := rfl

theorem reportedAll_cons_short (g : UserFileGroupBySize) (gs : List UserFileGroupBySize)
    (h : g.files.length < 2) : reportedAll (g :: gs) = reportedAll gs := by
  unfold reportedAll
  rw [List.filter_cons_of_neg (by simpa using h)]

theorem reportedAll_cons_long (g : UserFileGroupBySize) (gs : List UserFileGroupBySize)
    (h : ¬ g.files.length < 2) :
    reportedAll (g :: gs) = reported g.files ++ reportedAll gs := by
  unfold reportedAll
  rw [List.filter_cons_of_pos (by simpa using h), List.flatMap_cons]

theorem reportedAll_length_le (groups : List UserFileGroupBySize) :
    (reportedAll groups).length ≤ (groups.map (fun g => g.files.length)).sum := by
  induction groups with
  | nil => simp [reportedAll_nil]
  | cons g gs ih =>
    rw [List.map_cons, List.sum_cons]
    by_cases h : g.files.length < 2
    · rw [reportedAll_cons_short g gs h]
      omega
    · rw [reportedAll_cons_long g gs h, List.length_append]
      have := reported_length_le g.files
      omega

/-- All entries a run of the loop of `showDuplicates` makes, and the counter it ends
with. -/
theorem showLoop_entries (groups : List UserFileGroupBySize) (c : Int) :
    (groups.foldl showStep (c, [])).2.flatMap (fun d => d.Files)
        = numbered c (reportedAll groups)
      ∧ (groups.foldl showStep (c, [])).1 = counterAfter c (reportedAll groups) := by
  induction groups generalizing c with
  | nil => simp [reportedAll_nil, numbered, counterAfter]
  | cons g gs ih =>
    by_cases h : g.files.length < 2
    · rw [showLoop_cons_short g gs c h, reportedAll_cons_short g gs h]
      exact ih c
    · obtain ⟨d, _, h2, h3⟩ := showLoop_cons_long g gs c h
      rw [h3, reportedAll_cons_long g gs h, numbered_append, counterAfter_append]
      obtain ⟨i1, i2⟩ := ih (counterAfter c (reported g.files))
      exact ⟨by rw [List.flatMap_cons, h2, i1], i2⟩

/-- The groups a run of the loop of `showDuplicates` collects, position by position. -/
theorem showLoop_get (groups : List UserFileGroupBySize) (c : Int) (hc : IsInt64 c) (i : Nat) :
    ((groups.foldl showStep (c, [])).2[i]?).map some
      = ((groups.filter (fun g => decide (2 ≤ g.files.length)))[i]?).map (fun g =>
          (DupGroupFromSizeGroup g (wrapInt64 (c +
            ((((groups.foldl showStep (c, [])).2.take i).map
              (fun d => d.Files.length)).sum : Nat)))).1) := by
  induction groups generalizing c i with
  | nil => simp
  | cons g gs ih =>
    by_cases h : g.files.length < 2
    · rw [showLoop_cons_short g gs c h, List.filter_cons_of_neg (by simpa using h)]
      exact ih c hc i
    · obtain ⟨d, h1, h2, h3⟩ := showLoop_cons_long g gs c h
      rw [h3, List.filter_cons_of_pos (by simpa using h)]
      cases i with
      | zero =>
        simp only [List.getElem?_cons_zero, Option.map_some', List.take_zero, List.map_nil,
          List.sum_nil, Nat.cast_zero, add_zero]
        rw [wrapInt64_of_isInt64 c hc, h1]
      | succ k =>
        simp only [List.getElem?_cons_succ, List.take_succ_cons, List.map_cons, List.sum_cons]
        rw [ih _ (isInt64_counterAfter c _ hc) k, counterAfter_wrap c _ hc]
        have hlen : d.Files.length = (reported g.files).length := by
          rw [h2, numbered_length]
        congr 1
        funext g2
        rw [wrapInt64_add, hlen, Nat.cast_add, add_assoc]

/-! ## The duplicate detector on the records `a.txt`, `b.txt`, `c.txt` -/

/-- C3, evaluated. On the size group `a.txt`, `b.txt`, `c.txt` (all of size 5, the first
two with the hash of `hello`, the third with the hash of `world`) and counter 0,
`DupGroupFromSizeGroup` returns a group whose `Hash` is the hash of `hello` and whose
entries are `b.txt`, `c.txt`, `a.txt`: the entry `c.txt` has another hash than the
group. -/
theorem DupGroupFromSizeGroup_mixed_hashes :
    DupGroupFromSizeGroup { Size := 5, files := [fileA, fileB, fileC] } 0
        = (some { Size := 5, Hash := md5Hello,
                  Files := [{ File := fileB, Number := 1 }, { File := fileC, Number := 2 },
                            { File := fileA, Number := 3 }] },
            3, none)
      ∧ fileC.Hash ≠ md5Hello := by
  decide

/-- C4, evaluated. Grouping the records `a.txt`, `b.txt`, `c.txt` and running the loop of
`showDuplicates` yields one duplicate group of size 5 with the hash of `hello` and three
entries: `b.txt` numbered 1, `c.txt` numbered 2, `a.txt` numbered 3. -/
theorem showDuplicates_scenarioA :
    showDuplicates (groupByFileSize [fileA, fileB, fileC])
      = [{ Size := 5, Hash := md5Hello,
           Files := [{ File := fileB, Number := 1 }, { File := fileC, Number := 2 },
                     { File := fileA, Number := 3 }] }] := by
  decide

/-! ## Numbering across groups -/

/-- C5. For every sequence of size groups (holding fewer than 2^63 files in all, as any
slices in memory do), the `Number` fields of all duplicate entries collected by the loop
of `showDuplicates`, read in output order group after group, are 1, 2, ..., k: the i-th
entry overall carries the number i. They are therefore strictly increasing and pairwise
distinct, and are not reset between groups. -/
theorem showDuplicates_numbers (groups : List UserFileGroupBySize)
    (hfit : (groups.map (fun g => g.files.length)).sum < 2 ^ 63) :
    ((showDuplicates groups).flatMap (fun d => d.Files)).map (fun e => e.Number)
        = (List.range ((showDuplicates groups).flatMap (fun d => d.Files)).length).map
            (fun (i : Nat) => (i : Int) + 1)
      ∧ (((showDuplicates groups).flatMap (fun d => d.Files)).map
          (fun e => e.Number)).Pairwise (fun m n => m < n)
      ∧ (((showDuplicates groups).flatMap (fun d => d.Files)).map
          (fun e => e.Number)).Nodup := by
  have hent : (showDuplicates groups).flatMap (fun d => d.Files)
      = numbered 0 (reportedAll groups) := (showLoop_entries groups 0).1
  have hlen := reportedAll_length_le groups
  have h0 : IsInt64 0 := by unfold IsInt64; constructor <;> norm_num
  have hb : (0 : Int) + ((reportedAll groups).length : Int) < 2 ^ 63 := by
    have : (reportedAll groups).length < 2 ^ 63 := lt_of_le_of_lt hlen hfit
    have h2 : ((reportedAll groups).length : Int) < ((2 ^ 63 : Nat) : Int) :=
      Int.ofNat_lt.2 this
    simpa using h2
  have hnum : ((showDuplicates groups).flatMap (fun d => d.Files)).map (fun e => e.Number)
      = (List.range ((showDuplicates groups).flatMap (fun d => d.Files)).length).map
          (fun (i : Nat) => (i : Int) + 1) := by
    rw [hent, numbered_numbers 0 _ h0 hb, numbered_length]
    apply List.map_congr_left
    intro i _
    simp
  have hpw : (((showDuplicates groups).flatMap (fun d => d.Files)).map
      (fun e => e.Number)).Pairwise (fun m n => m < n) := by
    rw [hnum, List.pairwise_map]
    refine List.Pairwise.imp ?_ (List.pairwise_lt_range _)
    intro a b hab
    have : (a : Int) < (b : Int) := Int.ofNat_lt.2 hab
    omega
  exact ⟨hnum, hpw, hpw.imp (fun h => ne_of_lt h)⟩

theorem showDuplicates_numbers_witness :
    (([{ Size := 5, files := [fileA, fileB, fileC] }, { Size := 7, files := [fileD] },
        { Size := 7, files := [fileD, fileD] }] : List UserFileGroupBySize).map
          (fun g => g.files.length)).sum < 2 ^ 63
      ∧ ((showDuplicates [{ Size := 5, files := [fileA, fileB, fileC] },
            { Size := 7, files := [fileD] },
            { Size := 7, files := [fileD, fileD] }]).flatMap (fun d => d.Files)).map
          (fun e => e.Number) = [1, 2, 3, 4, 5] :=
  ⟨by decide,
    (showDuplicates_numbers [{ Size := 5, files := [fileA, fileB, fileC] },
      { Size := 7, files := [fileD] }, { Size := 7, files := [fileD, fileD] }]
      (by decide)).1.trans (by decide)⟩

/-! ## The error case -/

/-- C6. For every size group and every counter `c`, `DupGroupFromSizeGroup` returns an
error if and only if the group has fewer than 2 members; when it returns an error it
returns no `DuplicateGroup` (`nil`) and the counter it returns is `c`. -/
theorem DupGroupFromSizeGroup_error (group : UserFileGroupBySize) (c : Int) :
    ((DupGroupFromSizeGroup group c).2.2 ≠ none ↔ group.files.length < 2)
      ∧ ((DupGroupFromSizeGroup group c).2.2 ≠ none →
          (DupGroupFromSizeGroup group c).1 = none ∧ (DupGroupFromSizeGroup group c).2.1 = c) := by
  by_cases h : group.files.length < 2
  · rw [DupGroupFromSizeGroup_short group c h]
    simp [h]
  · obtain ⟨a, b, rest, hg⟩ := exists_two_of_length group h
    have hl : ¬ (a :: b :: rest).length < 2 := by simp
    rw [hg, DupGroupFromSizeGroup_eq]
    simp

/-! ## Groups of one member -/

/-- C7, as stated, fails: the only record of size 7 among `a.txt`, `d.bin`, `b.txt` gets a
group of its own, so not every group has two members. -/
theorem groupByFileSize_lone_size :
    ¬ ∀ g ∈ groupByFileSize [fileA, fileD, fileB], 2 ≤ g.files.length := by
  decide

/-- C7, amended. For every list of file records, every group returned by
`groupByFileSize` has at least one member, and a nonzero size observed on only one record
does become a group, whose only member is that record. -/
theorem groupByFileSize_groups_nonempty (files : List UserFile) :
    (∀ g ∈ groupByFileSize files, 1 ≤ g.files.length)
      ∧ (∀ f ∈ files, f.Size ≠ 0 →
          files.filter (fun x => decide (x.Size = f.Size)) = [f] →
          { Size := f.Size, files := [f] } ∈ groupByFileSize files) := by
  constructor
  · intro g hg
    obtain ⟨hs, hf⟩ := mem_groupByFileSize files g hg
    obtain ⟨_, hin⟩ := (mem_openedSizes files g.Size).1 hs
    obtain ⟨f, hf1, hf2⟩ := List.mem_map.1 hin
    have hmem : f ∈ g.files := by
      rw [hf, List.mem_filter]
      exact ⟨hf1, by simpa using hf2⟩
    exact List.length_pos_of_mem hmem
  · intro f hf h0 hone
    rw [groupByFileSize_eq, List.mem_map]
    refine ⟨f.Size, (mem_openedSizes files f.Size).2 ⟨h0, List.mem_map_of_mem _ hf⟩, ?_⟩
    rw [hone]

/-! ## A single record -/

/-- C8, as stated, fails: for the single record of an empty file, `groupByFileSize`
returns no group at all, not the group of that record. -/
theorem groupByFileSize_single_empty :
    groupByFileSize [fileEmpty] = []
      ∧ groupByFileSize [fileEmpty] ≠ [{ Size := fileEmpty.Size, files := [fileEmpty] }] := by
  decide

/-- C8, amended. For every input of exactly one file record, `groupByFileSize` returns
exactly one group when the record's `Size` is nonzero, with that size and the record as
its only member, and no group when the `Size` is 0; in both cases the duplicate-detection
pass over the result produces no `DuplicateGroup`. -/
theorem single_record (f : UserFile) :
    groupByFileSize [f]
        = (if f.Size = 0 then [] else [{ Size := f.Size, files := [f] }])
      ∧ showDuplicates (groupByFileSize [f]) = [] := by
  have hg : groupByFileSize [f]
      = (if f.Size = 0 then [] else [{ Size := f.Size, files := [f] }]) := by
    by_cases h0 : f.Size = 0
    · simp [groupByFileSize, initGroupsStep, h0]
    · have hc : contains [0] f.Size = false := by
        simp [contains, Ne.symm h0]
      simp [groupByFileSize, initGroupsStep, h0, hc, addFilesStep,
        UserFileGroupBySize.AddFile, NewUserFileGroupBySize]
  refine ⟨hg, ?_⟩
  rw [hg]
  by_cases h0 : f.Size = 0
  · simp [h0, showDuplicates, showDuplicatesLoop]
  · simp only [h0, if_false, showDuplicates, showDuplicatesLoop, List.foldl_cons,
      List.foldl_nil]
    rw [showStep_short _ _ (by simp)]

/-! ## One duplicate group per size group of two or more -/

/-- C9. For every sequence of size groups, the duplicate groups collected by the loop of
`showDuplicates` are as many as the size groups of at least two members and correspond
to them in order: the i-th collected group is the one `DupGroupFromSizeGroup` builds
from the i-th such size group, called with the counter reached by then (the number of
entries of the groups collected before it, as a 64-bit integer). Size groups of fewer
than two members contribute nothing. -/
theorem showDuplicates_correspondence (groups : List UserFileGroupBySize) :
    (showDuplicates groups).length
        = (groups.filter (fun g => decide (2 ≤ g.files.length))).length
      ∧ ∀ i : Nat,
          ((showDuplicates groups)[i]?).map some
            = ((groups.filter (fun g => decide (2 ≤ g.files.length)))[i]?).map (fun g =>
                (DupGroupFromSizeGroup g (wrapInt64
                  ((((showDuplicates groups).take i).map
                    (fun d => d.Files.length)).sum : Nat))).1) := by
  have h0 : IsInt64 0 := by unfold IsInt64; constructor <;> norm_num
  have hall : ∀ i : Nat,
      ((showDuplicates groups)[i]?).map some
        = ((groups.filter (fun g => decide (2 ≤ g.files.length)))[i]?).map (fun g =>
            (DupGroupFromSizeGroup g (wrapInt64
              ((((showDuplicates groups).take i).map
                (fun d => d.Files.length)).sum : Nat))).1) := by
    intro i
    have := showLoop_get groups 0 h0 i
    simp only [zero_add] at this
    exact this
  refine ⟨?_, hall⟩
  apply le_antisymm
  · by_contra hlt
    push_neg at hlt
    have := hall (groups.filter (fun g => decide (2 ≤ g.files.length))).length
    rw [List.getElem?_eq_getElem hlt, List.getElem?_eq_none (le_refl _)] at this
    simp at this
  · by_contra hlt
    push_neg at hlt
    have := hall (showDuplicates groups).length
    rw [List.getElem?_eq_getElem hlt, List.getElem?_eq_none (le_refl _)] at this
    simp at this

/-! ## The sort in `main` -/

/-- Some slice meets what `sort.Slice` promises for the comparator of `main`, whatever
the input and the direction: sorting by insertion yields one. -/
theorem exists_isSliceSorted (isAscending : Bool) (groups : List UserFileGroupBySize) :
    ∃ sorted, IsSliceSorted (sizeLess isAscending) groups sorted := by
  haveI : IsTotal UserFileGroupBySize (fun a b => sizeLess isAscending b a = false) :=
    ⟨fun a b => by
      cases isAscending <;> simp only [sizeLess, Bool.false_eq_true, if_false, if_true,
        decide_eq_false_iff_not, gt_iff_lt, not_lt] <;> omega⟩
  haveI : IsTrans UserFileGroupBySize (fun a b => sizeLess isAscending b a = false) :=
    ⟨fun a b c => by
      cases isAscending <;> simp only [sizeLess, Bool.false_eq_true, if_false, if_true,
        decide_eq_false_iff_not, gt_iff_lt, not_lt] <;> omega⟩
  exact ⟨groups.insertionSort (fun a b => sizeLess isAscending b a = false),
    List.perm_insertionSort _ _, List.sorted_insertionSort _ _⟩


/-- A slice that meets what `sort.Slice` promises for the comparator of `main` is ordered
by size in the chosen direction, pair by adjacent pair. -/
theorem adjacent_of_isSliceSorted (isAscending : Bool)
    (groups sorted : List UserFileGroupBySize)
    (hsort : IsSliceSorted (sizeLess isAscending) groups sorted) :
    sorted.Chain' (fun a b =>
      if isAscending = true then a.Size ≤ b.Size else a.Size ≥ b.Size) := by
  obtain ⟨_, hpw⟩ := hsort
  refine List.Pairwise.chain' (hpw.imp ?_)
  intro a b hab
  cases isAscending with
  | true =>
    simp only [sizeLess, if_true, decide_eq_false_iff_not, not_lt] at hab
    simpa using hab
  | false =>
    simp only [sizeLess, Bool.false_eq_true, if_false, decide_eq_false_iff_not, gt_iff_lt,
      not_lt] at hab
    simpa using hab

/-- Moving an element down into the sorted part keeps the elements. -/
theorem insertBack_perm (less : UserFileGroupBySize → UserFileGroupBySize → Bool)
    (x : UserFileGroupBySize) (sortedPart : List UserFileGroupBySize) :
    (insertBack less x sortedPart).Perm (x :: sortedPart) := by
  induction sortedPart with
  | nil => exact List.Perm.refl _
  | cons y rest ih =>
    rw [insertBack]
    split_ifs
    · exact ((List.Perm.cons y ih).trans (List.Perm.swap x y rest))
    · exact List.Perm.refl _

/-- Moving an element down into the sorted part keeps that part sorted, for the
comparator of `main`: read last element first, no element is `less` than one after it. -/
theorem insertBack_pairwise (isAscending : Bool) (x : UserFileGroupBySize)
    (sortedPart : List UserFileGroupBySize)
    (h : sortedPart.Pairwise (fun a b => sizeLess isAscending a b = false)) :
    (insertBack (sizeLess isAscending) x sortedPart).Pairwise
      (fun a b => sizeLess isAscending a b = false) := by
  induction sortedPart with
  | nil => simp [insertBack]
  | cons y rest ih =>
    rw [List.pairwise_cons] at h
    obtain ⟨hy, hrest⟩ := h
    rw [insertBack]
    by_cases hl : sizeLess isAscending x y = true
    · rw [if_pos hl, List.pairwise_cons]
      refine ⟨?_, ih hrest⟩
      intro z hz
      rcases List.mem_cons.1 ((insertBack_perm _ x rest).mem_iff.1 hz) with hzx | hzr
      · subst hzx
        cases isAscending with
        | true =>
          simp only [sizeLess, if_true, decide_eq_true_eq] at hl
          simp only [sizeLess, if_true, decide_eq_false_iff_not, not_lt]
          omega
        | false =>
          simp only [sizeLess, Bool.false_eq_true, if_false, decide_eq_true_eq,
            gt_iff_lt] at hl
          simp only [sizeLess, Bool.false_eq_true, if_false, decide_eq_false_iff_not,
            gt_iff_lt, not_lt]
          omega
      · exact hy z hzr
    · have hl2 : sizeLess isAscending x y = false := by simpa using hl
      rw [if_neg hl, List.pairwise_cons]
      refine ⟨?_, List.pairwise_cons.2 ⟨hy, hrest⟩⟩
      intro z hz
      rcases List.mem_cons.1 hz with hzy | hzr
      · subst hzy
        exact hl2
      · have hyz := hy z hzr
        cases isAscending with
        | true =>
          simp only [sizeLess, if_true, decide_eq_false_iff_not, not_lt] at hl2 hyz
          simp only [sizeLess, if_true, decide_eq_false_iff_not, not_lt]
          omega
        | false =>
          simp only [sizeLess, Bool.false_eq_true, if_false, decide_eq_false_iff_not,
            gt_iff_lt, not_lt] at hl2 hyz
          simp only [sizeLess, Bool.false_eq_true, if_false, decide_eq_false_iff_not,
            gt_iff_lt, not_lt]
          omega

/-- The outer loop of the insertion sort keeps the elements and the order of the sorted
part. -/
theorem insertLoop_spec (isAscending : Bool) (x sortedPart : List UserFileGroupBySize)
    (h : sortedPart.Pairwise (fun a b => sizeLess isAscending a b = false)) :
    (x.foldl (fun part group => insertBack (sizeLess isAscending) group part)
        sortedPart).Perm (x ++ sortedPart)
      ∧ (x.foldl (fun part group => insertBack (sizeLess isAscending) group part)
          sortedPart).Pairwise (fun a b => sizeLess isAscending a b = false) := by
  induction x generalizing sortedPart with
  | nil => exact ⟨List.Perm.refl _, h⟩
  | cons g gs ih =>
    rw [List.foldl_cons]
    obtain ⟨hp, hs⟩ := ih _ (insertBack_pairwise isAscending g sortedPart h)
    refine ⟨?_, hs⟩
    refine hp.trans ?_
    refine (List.Perm.append_left gs (insertBack_perm _ g sortedPart)).trans ?_
    exact List.perm_middle

/-- The sort step of `main` does what `sort.Slice` promises. -/
theorem sortGroups_isSliceSorted (isAscending : Bool) (groups : List UserFileGroupBySize) :
    IsSliceSorted (sizeLess isAscending) groups (sortGroups isAscending groups) := by
  unfold IsSliceSorted sortGroups sortSlice
  obtain ⟨hp, hs⟩ := insertLoop_spec isAscending groups [] List.Pairwise.nil
  constructor
  · refine (List.reverse_perm _).trans ?_
    simpa using hp
  · rw [List.pairwise_reverse]
    exact hs

/-- The loop of `getSortingOption` asks again until the answer is 1 or 2. -/
theorem sortingLoop_skip (bad : List (Option Int)) (answer v : Int) (more : List (Option Int))
    (h1 : answer ≠ 1) (h2 : answer ≠ 2)
    (hbad : ∀ s ∈ bad, s ≠ some 1 ∧ s ≠ some 2) :
    sortingLoop answer (bad ++ some v :: more)
      = if v = 1 then some false else if v = 2 then some true else sortingLoop v more := by
  induction bad generalizing answer with
  | nil => simp [sortingLoop]
  | cons s bad ih =>
    have hs := hbad s (List.mem_cons_self _ _)
    have hn1 : s.getD answer ≠ 1 := by
      cases s with
      | none => exact h1
      | some w =>
        intro hw
        exact hs.1 (by rw [show w = 1 from hw])
    have hn2 : s.getD answer ≠ 2 := by
      cases s with
      | none => exact h2
      | some w =>
        intro hw
        exact hs.2 (by rw [show w = 2 from hw])
    rw [List.cons_append, sortingLoop, if_neg hn1, if_neg hn2]
    exact ih _ hn1 hn2 (fun t ht => hbad t (List.mem_cons_of_mem _ ht))

/-- C10. For every list of size groups and either sort direction, the sort performed in
`main` with its comparator (`Size <` when ascending, `Size >` when descending) returns a
permutation of the input groups in which every adjacent pair `(a, b)` has
`a.Size ≥ b.Size` when descending was chosen and `a.Size ≤ b.Size` when ascending was
chosen. The direction comes from `getSortingOption`: after any answers other than 1 and
2, the answer 1 (descending) makes `isAscending` false and the answer 2 (ascending) makes
it true. On `a.txt`, `d.bin`, `b.txt` the groups of sizes 5, 7 come out as 7, 5 when
descending and as 5, 7 when ascending. -/
theorem main_sort_adjacent (isAscending : Bool) (groups : List UserFileGroupBySize) :
    (sortGroups isAscending groups).Perm groups
      ∧ (sortGroups isAscending groups).Chain' (fun a b =>
          if isAscending = true then a.Size ≤ b.Size else a.Size ≥ b.Size)
      ∧ (∀ (bad more : List (Option Int)), (∀ s ∈ bad, s ≠ some 1 ∧ s ≠ some 2) →
          getSortingOption (bad ++ some 1 :: more) = some false
            ∧ getSortingOption (bad ++ some 2 :: more) = some true)
      ∧ sortGroups false (groupByFileSize [fileA, fileD, fileB])
          = [{ Size := 7, files := [fileD] }, { Size := 5, files := [fileA, fileB] }]
      ∧ sortGroups true (groupByFileSize [fileA, fileD, fileB])
          = [{ Size := 5, files := [fileA, fileB] }, { Size := 7, files := [fileD] }] := by
  have hsort := sortGroups_isSliceSorted isAscending groups
  refine ⟨hsort.1, adjacent_of_isSliceSorted isAscending groups _ hsort, ?_, by decide,
    by decide⟩
  intro bad more hbad
  unfold getSortingOption
  constructor
  · rw [sortingLoop_skip bad 0 1 more (by decide) (by decide) hbad]
    simp
  · rw [sortingLoop_skip bad 0 2 more (by decide) (by decide) hbad]
    simp

/-! ## Lemmas on the extension filter and the walker -/

theorem dot_append_eq_dot (t : String) : "." ++ t = "." ↔ t = "" := by
  rw [String.ext_iff, String.ext_iff, String.data_append]
  show ['.'] ++ t.data = ['.'] ↔ t.data = []
  simp

/-- A token with a character in it makes a filter value other than the lone dot. -/
theorem shouldFilter_iff (t : String) : (NewExtFilter t).ShouldFilter = true ↔ t ≠ "" := by
  unfold ExtFilter.ShouldFilter NewExtFilter
  simp [dot_append_eq_dot]

/-- Closed form of the loop of `filepath.Ext`. -/
theorem extScan_eq (before suffix : List Char) :
    extScan before suffix
      = if '.' ∈ before.takeWhile (fun c => !IsPathSeparator c) then
          '.' :: (((before.takeWhile (fun c => !IsPathSeparator c)).takeWhile
            (fun c => decide (c ≠ '.'))).reverse ++ suffix)
        else [] := by
  induction before generalizing suffix with
  | nil => simp [extScan]
  | cons c before ih =>
    by_cases hs : IsPathSeparator c = true
    · simp [extScan, hs, List.takeWhile_cons]
    · have hs2 : IsPathSeparator c = false := by simpa using hs
      by_cases hd : c = '.'
      · subst hd
        simp [extScan, hs2, List.takeWhile_cons]
      · rw [extScan, if_neg hs, if_neg hd, ih]
        have hd2 : ¬ '.' = c := fun h => hd h.symm
        simp [List.takeWhile_cons, hs2, hd, hd2]

/-- The extension `filepath.Ext` computes is the part of the final path element from its
last dot on. -/
theorem Ext_data (path : String) : (Ext path).data = extensionOf path.data := by
  unfold Ext extensionOf finalElement
  simp only [extScan_eq, List.mem_reverse, List.reverse_reverse, List.append_nil]

/-- The shape of an extension: empty, or a dot followed by characters that are neither a
dot nor a separator. -/
theorem Ext_shape (path : String) :
    (Ext path).data = [] ∨
      ∃ rest : List Char, (Ext path).data = '.' :: rest ∧ '.' ∉ rest ∧ '/' ∉ rest := by
  unfold Ext
  simp only [extScan_eq, List.append_nil]
  split_ifs with h
  · refine Or.inr ⟨_, rfl, ?_, ?_⟩
    · intro hm
      have := List.mem_takeWhile_imp (List.mem_reverse.1 hm)
      simp at this
    · intro hm
      have h1 := (List.takeWhile_sublist _).subset (List.mem_reverse.1 hm)
      have := List.mem_takeWhile_imp h1
      simp [IsPathSeparator] at this
  · exact Or.inl rfl

/-- No extension equals the filter value of a token that holds a dot or a separator. -/
theorem Ext_ne_dotted (t : String) (hbad : '.' ∈ t.data ∨ '/' ∈ t.data) (path : String) :
    Ext path ≠ "." ++ t := by
  intro h
  have hd : (Ext path).data = '.' :: t.data := by
    rw [h, String.data_append]
    rfl
  rcases Ext_shape path with h0 | ⟨rest, hr, h1, h2⟩
  · rw [h0] at hd
    exact List.noConfusion hd
  · rw [hr] at hd
    have : rest = t.data := (List.cons.inj hd).2
    subst this
    rcases hbad with hb | hb
    · exact h1 hb
    · exact h2 hb

/-- The walk function on an entry that has a file info. -/
theorem walkFn_some (readHash : String → Option String) (t path : String) (info : FileInfo)
    (err : Option String) (files : List UserFile) :
    walkFn readHash (NewExtFilter t) files { path := path, info := some info, err := err }
      = if info.IsDir = false ∧ (t = "" ∨ Ext path = "." ++ t) then
          match readHash path with
          | some hash =>
            Except.ok (files ++ [{ Name := info.Name, Path := path, Size := info.Size,
                                   FileExtension := Ext path, Hash := hash }], none)
          | none => Except.error Abort.fatal
        else Except.ok (files, none) := by
  unfold walkFn
  simp only
  by_cases hdir : info.IsDir = true
  · simp [hdir]
  · have hdir2 : info.IsDir = false := by simpa using hdir
    by_cases ht : t = ""
    · have hsf : (NewExtFilter t).ShouldFilter = false := by
        have := shouldFilter_iff t
        cases h : (NewExtFilter t).ShouldFilter with
        | false => rfl
        | true => exact absurd ht (this.1 h)
      simp only [hdir2, hsf, ht, Bool.false_and, Bool.false_eq_true, if_false, true_or,
        and_self, if_true, NewUserFile]
      cases readHash path <;> rfl
    · have hsf : (NewExtFilter t).ShouldFilter = true := (shouldFilter_iff t).2 ht
      by_cases he : Ext path = "." ++ t
      · have hf : decide (Ext path ≠ (NewExtFilter t).Filter) = false := by
          simp [ExtFilter.Filter, NewExtFilter, he]
        have hcond : info.IsDir = false ∧ (t = "" ∨ Ext path = "." ++ t) :=
          ⟨hdir2, Or.inr he⟩
        rw [if_pos hcond]
        simp only [hdir2, hsf, hf, Bool.and_false, Bool.false_eq_true, if_false, NewUserFile]
        cases readHash path <;> rfl
      · have hf : decide (Ext path ≠ (NewExtFilter t).Filter) = true := by
          simp [ExtFilter.Filter, NewExtFilter, he]
        simp [hdir2, hsf, hf, ht, he]

/-- The walk function never returns an error: when it returns, the error is `nil`. -/
theorem walkFn_no_error (readHash : String → Option String) (filter : ExtFilter)
    (files : List UserFile) (v : Visit) (r : List UserFile × Option String)
    (h : walkFn readHash filter files v = Except.ok r) : r.2 = none := by
  unfold walkFn at h
  split at h
  · exact Except.noConfusion h
  · split_ifs at h
    · cases h
      rfl
    · cases h
      rfl
    · split at h
      · exact Except.noConfusion h
      · cases h
        rfl

/-- The walk never ends with an error either. -/
theorem walkLoop_no_error (readHash : String → Option String) (filter : ExtFilter)
    (visits : List Visit) (files : List UserFile) (r : List UserFile × Option String)
    (h : walkLoop readHash filter visits files = Except.ok r) : r.2 = none := by
  induction visits generalizing files with
  | nil =>
    simp only [walkLoop] at h
    cases h
    rfl
  | cons v vs ih =>
    rw [walkLoop] at h
    cases hw : walkFn readHash filter files v with
    | error e =>
      rw [hw] at h
      exact Except.noConfusion h
    | ok r2 =>
      obtain ⟨files2, e2⟩ := r2
      have hn := walkFn_no_error readHash filter files v _ hw
      simp only at hn
      subst hn
      rw [hw] at h
      exact ih files2 h

/-- With a token that holds a dot or a separator the walk adds nothing to the records: it
stops on an entry without file info, and otherwise returns the records it started with. -/
theorem walkLoop_dotted (readHash : String → Option String) (t : String)
    (hbad : '.' ∈ t.data ∨ '/' ∈ t.data) (visits : List Visit) (files : List UserFile) :
    (walkLoop readHash (NewExtFilter t) visits files = Except.ok (files, none)
        ∨ walkLoop readHash (NewExtFilter t) visits files = Except.error Abort.nilDereference)
      ∧ ((∀ v ∈ visits, v.info ≠ none) →
          walkLoop readHash (NewExtFilter t) visits files = Except.ok (files, none)) := by
  have hstep : ∀ (path : String) (info : FileInfo) (err : Option String),
      walkFn readHash (NewExtFilter t) files { path := path, info := some info, err := err }
        = Except.ok (files, none) := by
    intro path info err
    rw [walkFn_some]
    have ht : t ≠ "" := by
      intro h
      subst h
      rcases hbad with hb | hb <;> simp at hb
    have hne := Ext_ne_dotted t hbad path
    rw [if_neg]
    rintro ⟨_, h | h⟩
    · exact ht h
    · exact hne h
  induction visits with
  | nil => exact ⟨Or.inl rfl, fun _ => rfl⟩
  | cons v vs ih =>
    obtain ⟨path, info, err⟩ := v
    cases info with
    | none =>
      refine ⟨Or.inr ?_, ?_⟩
      · simp [walkLoop, walkFn]
      · intro hall
        exact absurd rfl (hall _ (List.mem_cons_self _ _))
    | some info =>
      have e : walkLoop readHash (NewExtFilter t)
          ({ path := path, info := some info, err := err } :: vs) files
          = walkLoop readHash (NewExtFilter t) vs files := by
        rw [walkLoop, hstep]
      rw [e]
      exact ⟨ih.1, fun hall => ih.2 (fun v hv => hall v (List.mem_cons_of_mem _ hv))⟩

/-! ## The extension filter at work -/

/-- C11. For every extension token `t` and every walked entry with its file info, the walk
function of `GetFiles` adds the entry's record to the result if and only if the entry is
not a directory and either `t` is the empty string or `filepath.Ext` of the path equals
`"." + t` exactly; in every other case the result is left as it was. (Adding the record
reads the file, and ends the program when that fails.) The extension is the part of the
final path element from its last dot on, dot included; the comparison is case-sensitive:
with `t = "txt"`, `x.txt` matches and `x.md` and `x.TXT` do not. -/
theorem walkFn_includes_iff (readHash : String → Option String) (t path : String)
    (info : FileInfo) (err : Option String) (files : List UserFile) :
    walkFn readHash (NewExtFilter t) files { path := path, info := some info, err := err }
        = (if info.IsDir = false ∧ (t = "" ∨ Ext path = "." ++ t) then
            match readHash path with
            | some hash =>
              Except.ok (files ++ [{ Name := info.Name, Path := path, Size := info.Size,
                                     FileExtension := Ext path, Hash := hash }], none)
            | none => Except.error Abort.fatal
          else Except.ok (files, none))
      ∧ (Ext path).data = extensionOf path.data
      ∧ Ext "x.txt" = "." ++ "txt" ∧ Ext "x.md" ≠ "." ++ "txt" ∧ Ext "x.TXT" ≠ "." ++ "txt" :=
  ⟨walkFn_some readHash t path info err files, Ext_data path, by decide, by decide, by decide⟩

/-! ## A root that cannot be walked -/

/-- C12, evaluated. For a root that cannot be examined, `filepath.Walk` calls the walk
function once, with no file info and the error; the walk function calls `info.IsDir()`
on the `nil` info, so `GetFiles` ends in a run-time panic instead of returning an error.
Moreover `GetFiles` never returns a non-nil error: whenever it returns, the error is
`nil`. -/
theorem GetFiles_root_failure (readHash : String → Option String) (filter : ExtFilter)
    (root e : String) :
    GetFiles readHash filter (rootFailure root e) = Except.error Abort.nilDereference
      ∧ ∀ (visits : List Visit) (r : List UserFile × Option String),
          GetFiles readHash filter visits = Except.ok r → r.2 = none :=
  ⟨rfl, fun visits r h => walkLoop_no_error readHash filter visits [] r h⟩

/-! ## Tokens with a dot or a separator -/

/-- C18. For every extension token that contains a dot or a path separator, the filter
accepts no path: `filepath.Ext` returns either the empty string or a dot followed by
characters that are neither a dot nor a separator, so it never equals `"." + token`;
the filter is active; and `GetFiles` returns no records, for any tree: it returns the
empty list when every entry has its file info, and never returns anything else. -/
theorem dotted_token_accepts_nothing (t : String) (hbad : '.' ∈ t.data ∨ '/' ∈ t.data) :
    (∀ path : String, (Ext path).data = [] ∨
        ∃ rest : List Char, (Ext path).data = '.' :: rest ∧ '.' ∉ rest ∧ '/' ∉ rest)
      ∧ (∀ path : String, Ext path ≠ (NewExtFilter t).Filter)
      ∧ (NewExtFilter t).ShouldFilter = true
      ∧ (∀ (readHash : String → Option String) (visits : List Visit),
          (∀ v ∈ visits, v.info ≠ none) →
          GetFiles readHash (NewExtFilter t) visits = Except.ok ([], none))
      ∧ (∀ (readHash : String → Option String) (visits : List Visit)
          (r : List UserFile × Option String),
          GetFiles readHash (NewExtFilter t) visits = Except.ok r → r.1 = []) := by
  refine ⟨Ext_shape, Ext_ne_dotted t hbad, ?_, ?_, ?_⟩
  · rw [shouldFilter_iff]
    intro h
    subst h
    rcases hbad with hb | hb <;> simp at hb
  · intro readHash visits hall
    exact (walkLoop_dotted readHash t hbad visits []).2 hall
  · intro readHash visits r h
    unfold GetFiles at h
    rcases (walkLoop_dotted readHash t hbad visits []).1 with h1 | h1
    · rw [h1] at h
      cases h
      rfl
    · rw [h1] at h
      exact Except.noConfusion h

theorem dotted_token_accepts_nothing_witness :
    ('.' ∈ ".txt".data ∨ '/' ∈ ".txt".data)
      ∧ GetFiles (fun _ => some md5Hello) (NewExtFilter ".txt")
          [{ path := "r", info := some { Name := "r", Size := 4096, IsDir := true },
             err := none },
           { path := "r/x.txt", info := some { Name := "x.txt", Size := 5, IsDir := false },
             err := none },
           { path := "r/x..txt", info := some { Name := "x..txt", Size := 5, IsDir := false },
             err := none }]
        = Except.ok ([], none) :=
  ⟨by decide,
    (dotted_token_accepts_nothing ".txt" (by decide)).2.2.2.1 (fun _ => some md5Hello) _
      (by decide)⟩

/-! ## Lemmas on the entries of one duplicate group -/

/-- The numbers given, overflow included. -/
theorem numbered_numbers_wrap (c : Int) (fs : List UserFile) :
    (numbered c fs).map (fun d => d.Number)
      = (List.range fs.length).map (fun (i : Nat) => wrapInt64 (c + ((i : Int) + 1))) := by
  induction fs generalizing c with
  | nil => rfl
  | cons f fs ih =>
    rw [numbered, List.map_cons, ih, List.length_cons, List.range_succ_eq_map, List.map_cons,
      List.map_map]
    simp only [NewDuplicate, Nat.cast_zero, zero_add, List.cons.injEq, true_and]
    apply List.map_congr_left
    intro i _
    simp only [Function.comp, Nat.cast_succ]
    rw [wrapInt64_add]
    congr 1
    ring

/-- The counter after numbering at least one file, overflow included. -/
theorem counterAfter_cons (c : Int) (f : UserFile) (fs : List UserFile) :
    counterAfter c (f :: fs) = wrapInt64 (c + ((f :: fs).length : Nat)) := by
  rw [counterAfter, counterAfter_wrap _ _ (isInt64_wrapInt64 _), wrapInt64_add]
  congr 1
  simp only [List.length_cons, Nat.cast_add, Nat.cast_one]
  ring

/-- Which hash a group ends up with. -/
theorem pickHash_eq (h : String) (fs : List UserFile) :
    pickHash h fs
      = if h = "" then
          match fs.find? (fun f => decide (f.Hash ≠ "")) with
          | some f => f.Hash
          | none => ""
        else h := by
  induction fs generalizing h with
  | nil =>
    by_cases hh : h = "" <;> simp [pickHash, hh]
  | cons f fs ih =>
    rw [pickHash, ih]
    by_cases hh : h = ""
    · by_cases hf : f.Hash = ""
      · simp [hh, hf, List.find?_cons]
      · simp [hh, hf, List.find?_cons]
    · simp [hh]

/-- The members of a group of at least two that become entries. -/
theorem reported_cons_cons (a b : UserFile) (rest : List UserFile) :
    reported (a :: b :: rest)
      = (b :: rest) ++ (if ∃ f ∈ b :: rest, f.Hash = a.Hash then [a] else []) := by
  simp only [reported]
  congr 1
  by_cases hm : ∃ f ∈ b :: rest, f.Hash = a.Hash
  · have hc : containsString ((b :: rest).map (fun f => f.Hash)) a.Hash = true := by
      rw [containsString_iff, List.mem_map]
      exact hm
    rw [if_pos hc, if_pos hm]
  · have hc : ¬ containsString ((b :: rest).map (fun f => f.Hash)) a.Hash = true := by
      rw [containsString_iff, List.mem_map]
      exact hm
    rw [if_neg hc, if_neg hm]

/-- The first member is among the members that become entries exactly when another
member has its hash. -/
theorem anchor_mem_reported (a b : UserFile) (rest : List UserFile) :
    a ∈ reported (a :: b :: rest) ↔ ∃ f ∈ b :: rest, f.Hash = a.Hash := by
  rw [reported_cons_cons]
  by_cases hm : ∃ f ∈ b :: rest, f.Hash = a.Hash
  · rw [if_pos hm]
    simp only [hm, iff_true]
    exact List.mem_append_right _ (List.mem_singleton_self a)
  · rw [if_neg hm, List.append_nil]
    simp only [hm, iff_false]
    intro ha
    exact hm ⟨a, ha, rfl⟩

/-! ## Every member after the first is reported -/

/-- C13. For every size group of `n ≥ 2` members (a first member `a`, a second `b` and
`rest`, so `n - 1 = rest.length + 1`) and every counter `c`, whatever the hashes are, the
entries of the `DuplicateGroup` that `DupGroupFromSizeGroup` returns begin with all
`n - 1` members after the first, in group order, numbered `c + 1`, `c + 2`, ...,
`c + n - 1` in 64-bit arithmetic, which are these very integers whenever `c` is a 64-bit
value and `c + n - 1` does not overflow. A member whose hash matches no other member is
reported all the same. -/
theorem nonAnchor_members_reported (size : Int) (a b : UserFile) (rest : List UserFile)
    (c : Int) :
    ∃ d, (DupGroupFromSizeGroup { Size := size, files := a :: b :: rest } c).1 = some d
      ∧ (d.Files.take (rest.length + 1)).map (fun e => e.File) = b :: rest
      ∧ (d.Files.take (rest.length + 1)).map (fun e => e.Number)
          = (List.range (rest.length + 1)).map (fun (i : Nat) => wrapInt64 (c + ((i : Int) + 1)))
      ∧ (IsInt64 c → c + ((rest.length + 1 : Nat) : Int) < 2 ^ 63 →
          (d.Files.take (rest.length + 1)).map (fun e => e.Number)
            = (List.range (rest.length + 1)).map (fun (i : Nat) => c + ((i : Int) + 1))) := by
  refine ⟨_, by rw [DupGroupFromSizeGroup_eq], ?_⟩
  have htake : (numbered c (reported (a :: b :: rest))).take (rest.length + 1)
      = numbered c (b :: rest) := by
    rw [reported_cons_cons, numbered_append]
    have hl : (numbered c (b :: rest)).length = rest.length + 1 := by
      rw [numbered_length, List.length_cons]
    rw [← hl, List.take_left]
  simp only [htake]
  refine ⟨numbered_files c _, ?_, ?_⟩
  · rw [numbered_numbers_wrap, List.length_cons]
  · intro hc hb
    rw [numbered_numbers c _ hc (by simpa using hb), List.length_cons]

/-! ## The first member -/

/-- C14. For every size group of `n ≥ 2` members (`n = rest.length + 2`) and every
counter `c`, the first member `a` is an entry of the returned `DuplicateGroup` if and only
if its `Hash` equals the `Hash` of at least one other member; when it is, it is the last
entry and carries the number `c + n`; and in both cases the returned counter is `c` plus
the number of entries. The sums are 64-bit sums, and are these very integers whenever `c`
is a 64-bit value and `c + n` does not overflow. -/
theorem anchor_entry_iff (size : Int) (a b : UserFile) (rest : List UserFile) (c : Int) :
    ∃ d, DupGroupFromSizeGroup { Size := size, files := a :: b :: rest } c
          = (some d, wrapInt64 (c + (d.Files.length : Nat)), none)
      ∧ d.Files.map (fun e => e.File)
          = (b :: rest) ++ (if ∃ f ∈ b :: rest, f.Hash = a.Hash then [a] else [])
      ∧ ((∃ e ∈ d.Files, e.File = a) ↔ ∃ f ∈ b :: rest, f.Hash = a.Hash)
      ∧ ((∃ f ∈ b :: rest, f.Hash = a.Hash) →
          d.Files.getLast?
            = some { File := a, Number := wrapInt64 (c + ((rest.length + 2 : Nat) : Int)) })
      ∧ (IsInt64 c → c + ((rest.length + 2 : Nat) : Int) < 2 ^ 63 →
          (DupGroupFromSizeGroup { Size := size, files := a :: b :: rest } c).2.1
              = c + (d.Files.length : Nat)
            ∧ ((∃ f ∈ b :: rest, f.Hash = a.Hash) →
                d.Files.getLast?
                  = some { File := a, Number := c + ((rest.length + 2 : Nat) : Int) })) := by
  have hrep : reported (a :: b :: rest)
      = b :: (rest ++ (if ∃ f ∈ b :: rest, f.Hash = a.Hash then [a] else [])) := by
    rw [reported_cons_cons, List.cons_append]
  have hcount : counterAfter c (reported (a :: b :: rest))
      = wrapInt64 (c + ((reported (a :: b :: rest)).length : Nat)) := by
    rw [hrep, counterAfter_cons]
  have hlen : (reported (a :: b :: rest)).length ≤ rest.length + 2 := by
    have := reported_length_le (a :: b :: rest)
    simpa using this
  have hlast : (∃ f ∈ b :: rest, f.Hash = a.Hash) →
      (numbered c (reported (a :: b :: rest))).getLast?
        = some { File := a, Number := wrapInt64 (c + ((rest.length + 2 : Nat) : Int)) } := by
    intro hm
    have hnum : wrapInt64 (wrapInt64 (c + ((b :: rest).length : Nat)) + 1)
        = wrapInt64 (c + ((rest.length + 2 : Nat) : Int)) := by
      rw [wrapInt64_add]
      congr 1
      simp only [List.length_cons, Nat.cast_add, Nat.cast_one, Nat.cast_ofNat]
      ring
    have hone : numbered (counterAfter c (b :: rest)) [a]
        = [{ File := a, Number := wrapInt64 (c + ((rest.length + 2 : Nat) : Int)) }] := by
      rw [counterAfter_cons, numbered, numbered, NewDuplicate, hnum]
    rw [reported_cons_cons, if_pos hm, numbered_append, hone, List.getLast?_append,
      List.getLast?_singleton]
    rfl
  refine ⟨{ Size := a.Size, Hash := pickHash "" (b :: rest),
            Files := numbered c (reported (a :: b :: rest)) }, ?_, ?_, ?_, hlast, ?_⟩
  · rw [DupGroupFromSizeGroup_eq, hcount, numbered_length]
  · rw [numbered_files, reported_cons_cons]
  · rw [← anchor_mem_reported]
    constructor
    · rintro ⟨e, he, rfl⟩
      have : e.File ∈ (numbered c (reported (e.File :: b :: rest))).map (fun d => d.File) :=
        List.mem_map_of_mem _ he
      rwa [numbered_files] at this
    · intro ha
      have : a ∈ (numbered c (reported (a :: b :: rest))).map (fun d => d.File) := by
        rwa [numbered_files]
      obtain ⟨e, he, hfile⟩ := List.mem_map.1 this
      exact ⟨e, he, hfile⟩
  · intro hc hb
    have hb2 : c + ((rest.length : Int) + 2) < 2 ^ 63 := by
      simpa using hb
    have hlen2 : ((reported (a :: b :: rest)).length : Int) ≤ (rest.length : Int) + 2 := by
      have := Int.ofNat_le.2 hlen
      simpa using this
    constructor
    · rw [DupGroupFromSizeGroup_eq]
      simp only [numbered_length]
      exact counterAfter_eq c _ hc (by omega)
    · intro hm
      rw [hlast hm, wrapInt64_of_isInt64]
      constructor
      · have := hc.1
        have h0 : (0 : Int) ≤ ((rest.length + 2 : Nat) : Int) := Int.ofNat_nonneg _
        omega
      · exact hb

/-! ## The hash of a duplicate group -/

/-- C15. For every size group of at least two members, the `Hash` field of the returned
`DuplicateGroup` is the `Hash` of the first member after the first (in group order)
whose `Hash` is not the empty string, and the empty string if there is none; it is never
taken from the first member. So when the second member has a non-empty hash, that is the
group's hash; for `a.txt`, `c.txt`, `b.txt` the hash is that of `c.txt`, although `a.txt`
and `b.txt` are the two files with a common hash. -/
theorem dupGroup_hash (size : Int) (a b : UserFile) (rest : List UserFile) (c : Int) :
    ∃ d, (DupGroupFromSizeGroup { Size := size, files := a :: b :: rest } c).1 = some d
      ∧ d.Hash = (match (b :: rest).find? (fun f => decide (f.Hash ≠ "")) with
                  | some f => f.Hash
                  | none => "")
      ∧ (b.Hash ≠ "" → d.Hash = b.Hash)
      ∧ (DupGroupFromSizeGroup { Size := 5, files := [fileA, fileC, fileB] } 0).1
          = some { Size := 5, Hash := md5World,
                   Files := [{ File := fileC, Number := 1 }, { File := fileB, Number := 2 },
                             { File := fileA, Number := 3 }] } := by
  refine ⟨_, by rw [DupGroupFromSizeGroup_eq], ?_, ?_, by decide⟩
  · simp only [pickHash_eq, if_true]
  · intro hb
    simp only [pickHash_eq, if_true, List.find?_cons]
    simp [hb]

/-! ## No two groups of one size -/

/-- The groups of `groupByFileSize` have pairwise different sizes. -/
theorem groupByFileSize_sizes_ne (files : List UserFile) :
    (groupByFileSize files).Pairwise (fun g h => g.Size ≠ h.Size) := by
  have hnd : ((groupByFileSize files).map (fun g => g.Size)).Nodup := by
    rw [groupByFileSize_sizes]
    exact openedSizes_nodup files
  rw [List.Nodup, List.pairwise_map] at hnd
  exact hnd

/-- A slice sorted by the comparator of `main` whose elements have pairwise different
sizes is strictly ordered by size. -/
theorem strict_of_isSliceSorted (isAscending : Bool)
    (groups sorted : List UserFileGroupBySize)
    (hne : groups.Pairwise (fun g h => g.Size ≠ h.Size))
    (hsort : IsSliceSorted (sizeLess isAscending) groups sorted) :
    sorted.Pairwise (fun a b =>
      if isAscending = true then a.Size < b.Size else a.Size > b.Size) := by
  obtain ⟨hperm, hpw⟩ := hsort
  have hne2 : sorted.Pairwise (fun g h => g.Size ≠ h.Size) :=
    (hperm.pairwise_iff (fun {x y} (h : x.Size ≠ y.Size) => Ne.symm h)).2 hne
  refine (hpw.and hne2).imp ?_
  intro a b hab
  obtain ⟨h1, h2⟩ := hab
  cases isAscending with
  | true =>
    simp only [sizeLess, if_true, decide_eq_false_iff_not, not_lt] at h1
    simp only [if_true]
    omega
  | false =>
    simp only [sizeLess, Bool.false_eq_true, if_false, decide_eq_false_iff_not, gt_iff_lt,
      not_lt] at h1
    simp only [Bool.false_eq_true, if_false, gt_iff_lt]
    omega

/-- C16. For every list of file records, no two groups returned by `groupByFileSize` have
the same `Size`: of two different groups one is always `less` than the other under the
comparator of `main`, so there are no ties whose order a sort could change. Hence any two
slices that `sort.Slice` may leave behind for that comparator are the same slice, and its
sizes are strictly, not just weakly, monotone. -/
theorem sorted_groups_unique (files : List UserFile) (isAscending : Bool)
    (sorted1 sorted2 : List UserFileGroupBySize)
    (h1 : IsSliceSorted (sizeLess isAscending) (groupByFileSize files) sorted1)
    (h2 : IsSliceSorted (sizeLess isAscending) (groupByFileSize files) sorted2) :
    (groupByFileSize files).Pairwise (fun g h => g.Size ≠ h.Size)
      ∧ (groupByFileSize files).Pairwise (fun g h =>
          sizeLess isAscending g h = true ∨ sizeLess isAscending h g = true)
      ∧ sorted1 = sorted2
      ∧ sorted1.Pairwise (fun a b =>
          if isAscending = true then a.Size < b.Size else a.Size > b.Size) := by
  have hne := groupByFileSize_sizes_ne files
  have hs1 := strict_of_isSliceSorted isAscending _ _ hne h1
  have hs2 := strict_of_isSliceSorted isAscending _ _ hne h2
  refine ⟨hne, ?_, ?_, hs1⟩
  · refine hne.imp ?_
    intro a b hab
    cases isAscending with
    | true =>
      simp only [sizeLess, if_true, decide_eq_true_eq]
      omega
    | false =>
      simp only [sizeLess, Bool.false_eq_true, if_false, decide_eq_true_eq, gt_iff_lt]
      omega
  · haveI : IsAntisymm UserFileGroupBySize (fun a b =>
        if isAscending = true then a.Size < b.Size else a.Size > b.Size) :=
      ⟨fun a b hab hba => by
        exfalso
        cases isAscending with
        | true =>
          simp only [if_true] at hab hba
          omega
        | false =>
          simp only [Bool.false_eq_true, if_false, gt_iff_lt] at hab hba
          omega⟩
    exact List.eq_of_perm_of_sorted (h1.1.trans h2.1.symm) hs1 hs2

theorem sorted_groups_unique_witness :
    IsSliceSorted (sizeLess false) (groupByFileSize [fileA, fileD, fileB])
        [{ Size := 7, files := [fileD] }, { Size := 5, files := [fileA, fileB] }]
      ∧ List.Pairwise (fun a b : UserFileGroupBySize =>
          if false = true then a.Size < b.Size else a.Size > b.Size)
        [{ Size := 7, files := [fileD] }, { Size := 5, files := [fileA, fileB] }] :=
  have h : IsSliceSorted (sizeLess false) (groupByFileSize [fileA, fileD, fileB])
      [{ Size := 7, files := [fileD] }, { Size := 5, files := [fileA, fileB] }] :=
    ⟨by decide, by decide⟩
  ⟨h, (sorted_groups_unique [fileA, fileD, fileB] false _ _ h h).2.2.2⟩

/-! ## Lemmas for the whole run -/

/-- The groups' files together are the nonzero-size records, rearranged. -/
theorem groupByFileSize_flatMap_perm (files : List UserFile) :
    ((groupByFileSize files).flatMap (fun g => g.files)).Perm
      (files.filter (fun f => decide (f.Size ≠ 0))) := by
  have hperm := flatMap_filter_perm files (openedSizes files) (openedSizes_nodup files)
  have e1 : (groupByFileSize files).flatMap (fun g => g.files)
      = (openedSizes files).flatMap
          (fun s => files.filter (fun f => decide (f.Size = s))) := by
    rw [groupByFileSize_eq, List.flatMap_map]
  have e2 : files.filter (fun f => decide (f.Size ∈ openedSizes files))
      = files.filter (fun f => decide (f.Size ≠ 0)) := by
    apply List.filter_congr
    intro f hf
    have hin : f.Size ∈ files.map (fun f => f.Size) := List.mem_map_of_mem _ hf
    by_cases h0 : f.Size = 0
    · have hno : f.Size ∉ openedSizes files := fun h =>
        ((mem_openedSizes files f.Size).1 h).1 h0
      simp [h0, h0 ▸ hno]
    · have hyes : f.Size ∈ openedSizes files := (mem_openedSizes files f.Size).2 ⟨h0, hin⟩
      simp [h0, hyes]
  rw [e1, ← e2]
  exact hperm

theorem subperm_append {xs1 xs2 ys1 ys2 : List UserFile}
    (h1 : List.Subperm xs1 ys1) (h2 : List.Subperm xs2 ys2) :
    List.Subperm (xs1 ++ xs2) (ys1 ++ ys2) := by
  obtain ⟨l1, p1, s1⟩ := h1
  obtain ⟨l2, p2, s2⟩ := h2
  exact ⟨l1 ++ l2, p1.append p2, s1.append s2⟩

/-- The members that become entries are members, each at most once. -/
theorem reported_subperm (files : List UserFile) : List.Subperm (reported files) files := by
  cases files with
  | nil => exact List.Subperm.refl _
  | cons a rest =>
    simp only [reported]
    split_ifs
    · exact (@List.perm_append_comm _ rest [a]).subperm
    · rw [List.append_nil]
      exact (List.sublist_cons_self a rest).subperm

/-- All entries of a run are members of the groups, each at most once. -/
theorem reportedAll_subperm (groups : List UserFileGroupBySize) :
    List.Subperm (reportedAll groups) (groups.flatMap (fun g => g.files)) := by
  induction groups with
  | nil => exact List.Subperm.refl _
  | cons g gs ih =>
    rw [List.flatMap_cons]
    by_cases h : g.files.length < 2
    · rw [reportedAll_cons_short g gs h]
      exact ih.trans (List.sublist_append_right _ _).subperm
    · rw [reportedAll_cons_long g gs h]
      exact subperm_append (reported_subperm g.files) ih

/-- Two members with one hash both become entries. -/
theorem pair_subperm_reported (f1 f2 : UserFile) (files : List UserFile)
    (hsub : List.Sublist [f1, f2] files) (hhash : f1.Hash = f2.Hash) :
    List.Subperm [f1, f2] (reported files) := by
  cases hsub with
  | @cons _ rest a hrest =>
    simp only [reported]
    exact (hrest.trans (List.sublist_append_left _ _)).subperm
  | @cons₂ _ rest _ hrest =>
    have hmem : f2 ∈ rest := List.singleton_sublist.1 hrest
    have hc : containsString (rest.map (fun f => f.Hash)) f1.Hash = true := by
      rw [containsString_iff, List.mem_map]
      exact ⟨f2, hmem, hhash.symm⟩
    simp only [reported, hc, if_true]
    have hs : List.Sublist ([f2] ++ [f1]) (rest ++ [f1]) :=
      hrest.append (List.Sublist.refl _)
    exact (@List.perm_append_comm _ [f1] [f2]).subperm.trans hs.subperm

/-- The sizes and the files of the groups a run of the loop of `showDuplicates` collects,
for size groups whose members have the size of their group. -/
theorem showLoop_shape (groups : List UserFileGroupBySize) (c : Int)
    (hsz : ∀ g ∈ groups, ∀ f ∈ g.files, f.Size = g.Size) :
    (groups.foldl showStep (c, [])).2.map (fun d => (d.Size, d.Files.map (fun e => e.File)))
      = (groups.filter (fun g => decide (2 ≤ g.files.length))).map
          (fun g => (g.Size, reported g.files)) := by
  induction groups generalizing c with
  | nil => rfl
  | cons g gs ih =>
    have hgs : ∀ g2 ∈ gs, ∀ f ∈ g2.files, f.Size = g2.Size := fun g2 hg2 =>
      hsz g2 (List.mem_cons_of_mem _ hg2)
    by_cases h : g.files.length < 2
    · rw [showLoop_cons_short g gs c h, List.filter_cons_of_neg (by simpa using h)]
      exact ih c hgs
    · obtain ⟨d, h1, h2, h3⟩ := showLoop_cons_long g gs c h
      rw [h3, List.filter_cons_of_pos (by simpa using h), List.map_cons, List.map_cons,
        ih _ hgs]
      have hsize : d.Size = g.Size := by
        obtain ⟨a, b, rest, hg⟩ := exists_two_of_length g h
        have ha : a.Size = g.Size := by
          have hmem : a ∈ g.files := by
            rw [hg]
            exact List.mem_cons_self _ _
          exact hsz g (List.mem_cons_self _ _) a hmem
        rw [hg, DupGroupFromSizeGroup_eq] at h1
        simp only [Option.some.injEq] at h1
        rw [← h1]
        exact ha
      rw [hsize, h2, numbered_files]

/-! ## No genuine duplicate is missed -/

/-- C17. For every list of file records and either sort direction, if two records at
different positions of the input (`f1` before `f2`, with any records before, between and
after them) have the same nonzero `Size` and the same `Hash`, then after grouping,
sorting and the loop of `showDuplicates` the collected duplicate groups have pairwise
different sizes, the one whose `Size` is the size of the two records has both of them
among its entries, and the files of all entries of all duplicate groups are input
records, each input position used at most once. -/
theorem genuine_duplicates_reported (before between after : List UserFile)
    (f1 f2 : UserFile) (isAscending : Bool) (sorted : List UserFileGroupBySize)
    (hsize : f1.Size = f2.Size) (hnz : f1.Size ≠ 0) (hhash : f1.Hash = f2.Hash)
    (hsort : IsSliceSorted (sizeLess isAscending)
      (groupByFileSize (before ++ f1 :: (between ++ f2 :: after))) sorted) :
    ((showDuplicates sorted).map (fun d => d.Size)).Nodup
      ∧ (∃ d ∈ showDuplicates sorted, d.Size = f1.Size
          ∧ List.Subperm [f1, f2] (d.Files.map (fun e => e.File)))
      ∧ List.Subperm ((showDuplicates sorted).flatMap
          (fun d => d.Files.map (fun e => e.File)))
          (before ++ f1 :: (between ++ f2 :: after)) := by
  obtain ⟨hperm, _⟩ := hsort
  generalize hfiles : before ++ f1 :: (between ++ f2 :: after) = files at hperm
  have hsub : List.Sublist [f1, f2] files := by
    rw [← hfiles]
    refine List.Sublist.trans ?_ (List.sublist_append_right _ _)
    refine List.Sublist.cons₂ _ ?_
    refine List.Sublist.trans ?_ (List.sublist_append_right _ _)
    exact List.Sublist.cons₂ _ (List.nil_sublist _)
  have hmemG : ∀ g ∈ sorted, g ∈ groupByFileSize files := fun g hg => (hperm.mem_iff).1 hg
  have hsz : ∀ g ∈ sorted, ∀ f ∈ g.files, f.Size = g.Size := by
    intro g hg f hf
    rw [(mem_groupByFileSize files g (hmemG g hg)).2, List.mem_filter] at hf
    simpa using hf.2
  have hshape := showLoop_shape sorted 0 hsz
  have hsizes : (showDuplicates sorted).map (fun d => d.Size)
      = (sorted.filter (fun g => decide (2 ≤ g.files.length))).map (fun g => g.Size) := by
    have := congrArg (List.map Prod.fst) hshape
    simpa [List.map_map, Function.comp] using this
  have hndS : (sorted.map (fun g => g.Size)).Nodup := by
    have hnd : ((groupByFileSize files).map (fun g => g.Size)).Nodup := by
      rw [groupByFileSize_sizes]
      exact openedSizes_nodup files
    exact ((hperm.map _).nodup_iff).2 hnd
  refine ⟨?_, ?_, ?_⟩
  · rw [hsizes]
    exact hndS.sublist ((List.filter_sublist _).map _)
  · have hf1 : f1 ∈ files := hsub.subset (List.mem_cons_self _ _)
    have hopen : f1.Size ∈ openedSizes files :=
      (mem_openedSizes files f1.Size).2 ⟨hnz, List.mem_map_of_mem _ hf1⟩
    have hgG : ({ Size := f1.Size, files := files.filter (fun f => decide (f.Size = f1.Size)) }
        : UserFileGroupBySize) ∈ groupByFileSize files := by
      rw [groupByFileSize_eq, List.mem_map]
      exact ⟨f1.Size, hopen, rfl⟩
    have hgS := (hperm.mem_iff).2 hgG
    have hsub2 : List.Sublist [f1, f2] (files.filter (fun f => decide (f.Size = f1.Size))) := by
      have := hsub.filter (fun f => decide (f.Size = f1.Size))
      simpa [List.filter_cons, hsize.symm] using this
    have hbig : 2 ≤ (files.filter (fun f => decide (f.Size = f1.Size))).length := by
      simpa using hsub2.length_le
    have hin : (f1.Size, reported (files.filter (fun f => decide (f.Size = f1.Size))))
        ∈ (sorted.filter (fun g => decide (2 ≤ g.files.length))).map
            (fun g => (g.Size, reported g.files)) := by
      rw [List.mem_map]
      refine ⟨_, List.mem_filter.2 ⟨hgS, ?_⟩, rfl⟩
      simpa using hbig
    rw [← hshape, List.mem_map] at hin
    obtain ⟨d, hd, hdeq⟩ := hin
    have hd1 : d.Size = f1.Size := congrArg Prod.fst hdeq
    have hd2 : d.Files.map (fun e => e.File)
        = reported (files.filter (fun f => decide (f.Size = f1.Size))) :=
      congrArg Prod.snd hdeq
    refine ⟨d, hd, hd1, ?_⟩
    rw [hd2]
    exact pair_subperm_reported f1 f2 _ hsub2 hhash
  · have hall : (showDuplicates sorted).flatMap (fun d => d.Files.map (fun e => e.File))
        = reportedAll sorted := by
      have h1 : (showDuplicates sorted).flatMap (fun d => d.Files)
          = numbered 0 (reportedAll sorted) := (showLoop_entries sorted 0).1
      have h2 : (showDuplicates sorted).flatMap (fun d => d.Files.map (fun e => e.File))
          = ((showDuplicates sorted).flatMap (fun d => d.Files)).map (fun e => e.File) := by
        rw [List.map_flatMap]
      rw [h2, h1, numbered_files]
    rw [hall]
    refine (reportedAll_subperm sorted).trans ?_
    refine ((hperm.flatMap_right _).trans (groupByFileSize_flatMap_perm files)).subperm.trans ?_
    exact (List.filter_sublist _).subperm

theorem genuine_duplicates_reported_witness :
    (fileA.Size = fileB.Size ∧ fileA.Size ≠ 0 ∧ fileA.Hash = fileB.Hash
        ∧ IsSliceSorted (sizeLess false)
            (groupByFileSize ([] ++ fileA :: ([fileD] ++ fileB :: [fileC])))
            [{ Size := 7, files := [fileD] }, { Size := 5, files := [fileA, fileB, fileC] }])
      ∧ ∃ d ∈ showDuplicates
            [{ Size := 7, files := [fileD] }, { Size := 5, files := [fileA, fileB, fileC] }],
          d.Size = fileA.Size ∧ List.Subperm [fileA, fileB] (d.Files.map (fun e => e.File)) :=
  have h : IsSliceSorted (sizeLess false)
      (groupByFileSize ([] ++ fileA :: ([fileD] ++ fileB :: [fileC])))
      [{ Size := 7, files := [fileD] }, { Size := 5, files := [fileA, fileB, fileC] }] :=
    ⟨by decide, by decide⟩
  ⟨⟨by decide, by decide, by decide, h⟩,
    (genuine_duplicates_reported [] [fileD] [fileC] fileA fileB false _
      (by decide) (by decide) (by decide) h).2.1⟩

/-! ## The sort step on the groups of `groupByFileSize` -/

/-- On groups of pairwise different sizes, every slice that meets what `sort.Slice`
promises for the comparator of `main` is the slice the sort step yields: there the
result of the sort does not depend on how the library sorts. -/
theorem sortGroups_eq_of_isSliceSorted (isAscending : Bool)
    (groups sorted : List UserFileGroupBySize)
    (hne : groups.Pairwise (fun g h => g.Size ≠ h.Size))
    (hsort : IsSliceSorted (sizeLess isAscending) groups sorted) :
    sorted = sortGroups isAscending groups := by
  have hmodel := sortGroups_isSliceSorted isAscending groups
  have hs1 := strict_of_isSliceSorted isAscending _ _ hne hsort
  have hs2 := strict_of_isSliceSorted isAscending _ _ hne hmodel
  haveI : IsAntisymm UserFileGroupBySize (fun a b =>
      if isAscending = true then a.Size < b.Size else a.Size > b.Size) :=
    ⟨fun a b hab hba => by
      exfalso
      cases isAscending with
      | true =>
        simp only [if_true] at hab hba
        omega
      | false =>
        simp only [Bool.false_eq_true, if_false, gt_iff_lt] at hab hba
        omega⟩
  exact List.eq_of_perm_of_sorted (hsort.1.trans hmodel.1.symm) hs1 hs2

/-- The groups `main` sorts come from `groupByFileSize`, so the sort step yields the only
slice that `sort.Slice` may leave behind. -/
theorem sortGroups_groupByFileSize (isAscending : Bool) (files : List UserFile)
    (sorted : List UserFileGroupBySize)
    (hsort : IsSliceSorted (sizeLess isAscending) (groupByFileSize files) sorted) :
    sorted = sortGroups isAscending (groupByFileSize files) :=
  sortGroups_eq_of_isSliceSorted isAscending _ _ (groupByFileSize_sizes_ne files) hsort

end Duper
